import Mathlib

/-!
Verification of the mutual-exclusion repository: a Lamport bakery lock with a
verification harness (src/unnamed/part_000 and src/src/Lamport_ds.cpp) and a
delegation (combining) lock (src/unnamed/part_001).

The bakery lock and its harness are embedded as an interleaving transition
system: each step of one thread performs at most one access to shared memory
(one atomic load, store, or read-modify-write), and any thread may step at any
time.  Local computation on registers is folded into the adjacent shared
access, which does not change the set of observable behaviours.  Ghost fields
(scanned values, passed wait checks, increment/decrement counters) record
history; they never influence the dynamics.

The delegation lock is driven by a single executor thread, so its worker loop
is embedded as a sequential function on the task queue.
-/

/-! ### Shared pure definitions (from the bakery sources) -/

/-- The wait condition of the bakery lock, exactly as both sources write it:
`ticket[j] != 0 && (ticket[j] < ticket[id] || (ticket[j] == ticket[id] && j < id))`
(src/src/Lamport_ds.cpp lines 45-47 and src/unnamed/part_000 lines 60-65). -/
def waitCond (tj : Int) (j : Nat) (ti : Int) (i : Nat) : Prop :=
  tj ≠ 0 ∧ (tj < ti ∨ (tj = ti ∧ j < i))

instance (tj : Int) (j : Nat) (ti : Int) (i : Nat) : Decidable (waitCond tj j ti i) := by
  unfold waitCond; infer_instance

/-- Lexicographic order on (ticket, id) pairs, as the spec words it. -/
def lexLt (a b : Int × Nat) : Prop :=
  a.1 < b.1 ∨ (a.1 = b.1 ∧ a.2 < b.2)

instance (a b : Int × Nat) : Decidable (lexLt a b) := by
  unfold lexLt; infer_instance

/-- The doorway scan of the bakery lock: starting from `max_ticket = 0`, fold
`max` over the scanned ticket values (`max_ticket = max(max_ticket, current)`,
src/src/Lamport_ds.cpp lines 28-33 and src/unnamed/part_000 lines 36-42). -/
def maxTicketScan (tickets : List Int) : Int :=
  tickets.foldl max 0

/-! ### BakeryLock construction (src/src/Lamport_ds.cpp) -/

/-- The state a `BakeryLock(int n)` constructor call produces: `threadCount`
is set to `n` and the two `vector`s are sized `n` and zero-initialised
(src/src/Lamport_ds.cpp lines 18-23).  The constructor performs no bound
check of any kind, so it is a total function of `n`. -/
structure BakeryLockState where
  threadCount : Nat
  choosing : List Bool
  ticket : List Int
  deriving DecidableEq, Repr

/-- `BakeryLock(int n)` from src/src/Lamport_ds.cpp lines 18-23. -/
def bakeryLockNew (n : Nat) : BakeryLockState :=
  { threadCount := n
    choosing := List.replicate n false
    ticket := List.replicate n 0 }

/-- The fixed maximum of the part_000 harness: `const int MAX_THREADS = 64`
(src/unnamed/part_000 line 20). -/
def part000MaxThreads : Nat := 64

/-- The configured participant count of the part_000 harness:
`const int NUM_THREADS = 8` (src/unnamed/part_000 line 12). -/
def part000NumThreads : Nat := 8

/-- The guard at the top of part_000's `main` (lines 115-119): if
`NUM_THREADS > MAX_THREADS` the program prints an error and returns 1 before
initialising the shared arrays or spawning any thread; otherwise the run
proceeds. -/
def part000MainGuard (numThreads maxThreads : Nat) : Except Nat Unit :=
  if numThreads > maxThreads then .error 1 else .ok ()

/-! ### Delegation lock (src/unnamed/part_001) -/

/-- A task submitted to the delegation lock: the closure is abstracted by its
identifier (submission order ghost) and by its outcome when run, normal
completion or a thrown exception. -/
structure DTask where
  tid : Nat
  work : Except String Unit

/-- What one pass of `DelegationLock::worker`'s loop body does once the
condition variable releases it, given the current value of `running` and the
queue contents (src/unnamed/part_001 lines 28-45).  The loop checks
`if (!running) break;` FIRST: when a stop was requested it exits immediately
and every task still in the queue is left behind, its promise never resolved.
Only when `running` still holds does it pop the front task.  With an empty
queue and `running` true, the wait predicate is false and the worker keeps
blocking. -/
inductive WorkerView
  | exited (dropped : List DTask)
  | stillWaiting
  | ranTask (t : DTask) (rest : List DTask)

/-- One iteration of the worker loop of src/unnamed/part_001 lines 29-44. -/
def workerIter (running : Bool) (queue : List DTask) : WorkerView :=
  if running = false then .exited queue
  else
    match queue with
    | [] => .stillWaiting
    | t :: rest => .ranTask t rest

/-- Outcome of the executor draining a queue: the identifiers of the tasks
whose closures were executed, in execution order; the identifiers whose
completion promise was resolved (`set_value`), in resolution order; and
whether the executor thread is still alive afterwards. -/
structure RunOutcome where
  executed : List Nat
  resolved : List Nat
  alive : Bool
  deriving DecidableEq, Repr

/-- The executor running the queued tasks front to back while `running` stays
true, following `DelegationLock::worker` (src/unnamed/part_001 lines 28-45):
pop the front task, call `task.work()`, then `task.completion.set_value()`.
There is no handler around `task.work()`: a thrown exception skips the
`set_value` call, escapes `worker`, and terminates the executor thread, so
the remaining tasks are never run. -/
def workerRun : List DTask → RunOutcome
  | [] => { executed := [], resolved := [], alive := true }
  | t :: rest =>
    match t.work with
    | .ok _ =>
      let r := workerRun rest
      { executed := t.tid :: r.executed, resolved := t.tid :: r.resolved, alive := r.alive }
    | .error _ => { executed := [t.tid], resolved := [], alive := false }

/-! ### Memory orders of the bakery lock's atomic accesses (for the
memory-ordering claim) -/

inductive MemOrder
  | relaxed
  | consume
  | acquire
  | release
  | acqRel
  | seqCst
  deriving DecidableEq, Repr

inductive AccessKind
  | load
  | store
  | rmw
  deriving DecidableEq, Repr

/-- One atomic access to the shared `choosing` / `ticket` (`number`) state. -/
structure AtomicAccess where
  kind : AccessKind
  order : MemOrder
  deriving DecidableEq, Repr

/-- The atomic accesses to `choosing[*]` / `number[*]` performed by `lock` in
src/unnamed/part_000 (lines 31-72), in program order:
`choosing[id].store(true, seq_cst)`; the doorway scan's
`number[i].load(relaxed)`; `number[id].store(max+1, seq_cst)`;
`choosing[id].store(false, seq_cst)`; the wait loop's
`choosing[j].load(seq_cst)`; `number[j].load(seq_cst)`; and the two
`number[thread_id].load(seq_cst)` of the wait condition. -/
def part000LockAccesses : List AtomicAccess :=
  [ { kind := .store, order := .seqCst }
  , { kind := .load, order := .relaxed }
  , { kind := .store, order := .seqCst }
  , { kind := .store, order := .seqCst }
  , { kind := .load, order := .seqCst }
  , { kind := .load, order := .seqCst }
  , { kind := .load, order := .seqCst }
  , { kind := .load, order := .seqCst } ]

/-- The single access of `unlock` in src/unnamed/part_000 (line 76):
`number[thread_id].store(0, seq_cst)`. -/
def part000UnlockAccesses : List AtomicAccess :=
  [ { kind := .store, order := .seqCst } ]

/-- The accesses of `BakeryLock::lock` and `BakeryLock::unlock` in
src/src/Lamport_ds.cpp (lines 25-57): every one uses the default
`std::atomic` operators, i.e. sequential consistency, in program order:
store `choosing[id]`, the scan's load of `ticket[i]`, store `ticket[id]`,
store `choosing[id]`, load `choosing[i]`, the five loads of the wait
condition (`ticket[i]` three times and `ticket[id]` twice), and unlock's
store of `ticket[id]`. -/
def lamportDsAccesses : List AtomicAccess :=
  [ { kind := .store, order := .seqCst }
  , { kind := .load, order := .seqCst }
  , { kind := .store, order := .seqCst }
  , { kind := .store, order := .seqCst }
  , { kind := .load, order := .seqCst }
  , { kind := .load, order := .seqCst }
  , { kind := .load, order := .seqCst }
  , { kind := .load, order := .seqCst }
  , { kind := .load, order := .seqCst }
  , { kind := .load, order := .seqCst }
  , { kind := .store, order := .seqCst } ]

/-- The ordering strength the spec demands of a single access: sequential
consistency, or at least acquire semantics on a load and release semantics
on a store (the spec's "equivalent combination of acquire/release
operations").  Relaxed ordering satisfies neither disjunct. -/
def specOrderOK (a : AtomicAccess) : Bool :=
  a.order = .seqCst ||
    (match a.kind with
     | .load => a.order = .acquire || a.order = .acqRel
     | .store => a.order = .release || a.order = .acqRel
     | .rmw => a.order = .acqRel)

/-! ### The part_000 bakery run as an interleaving transition system

Threads are `Fin N` (`NUM_THREADS` is the parameter `N`), each thread runs
`worker_thread` (src/unnamed/part_000 lines 80-112): `K` iterations
(`ITERATIONS_PER_THREAD`) of lock / critical section / unlock.  Each transition
performs at most one access to the shared state.  The two loads of
`number[thread_id]` inside the wait condition are folded into the load of
`number[j]`: `number[thread_id]` is written only by the thread itself, so they
read the same, unchanged value no matter where they are split. -/

namespace Bakery

/-- Program counter of one worker thread, one value per shared-memory access
of src/unnamed/part_000 (plus the pure loop heads):
idle = the `for` head of `worker_thread`;
setChoosing = `choosing[id].store(true)` (line 34);
scan = the `for` loop computing `max_num` (lines 37-43, one step per load);
setNumber = `number[id].store(max_num + 1)` (line 44);
clearChoosing = `choosing[id].store(false)` (line 47);
waitLoop = the `for (j ...)` head with the self test (lines 50-53);
waitChoosing = the spin `while (choosing[j].load())` (line 56);
waitNumber = the spin on the wait condition (lines 60-68);
csEnter = `inside_critical_section_count.fetch_add(1)` (line 84);
csViol1 = the conditional `mutual_exclusion_violated.store(true)` (lines 86-89);
csCount = `shared_counter.fetch_add(1)` (line 92);
csCheck2 = the re-load of `inside_critical_section_count` (line 100);
csViol2 = the second conditional violation store (lines 100-102);
csExit = `inside_critical_section_count.fetch_sub(1)` (line 103);
unlockStep = `number[thread_id].store(0)` in `unlock` (line 76);
done = the thread returned. -/
inductive PC
  | idle
  | setChoosing
  | scan
  | setNumber
  | clearChoosing
  | waitLoop
  | waitChoosing
  | waitNumber
  | csEnter
  | csViol1
  | csCount
  | csCheck2
  | csViol2
  | csExit
  | unlockStep
  | done
  deriving DecidableEq, Repr

/-- Thread-local state: the loop counter `i` of `worker_thread`, the scan
index and running maximum of the doorway, the wait-loop index `j`, the two
values read from `inside_critical_section_count`, and ghost history (values
read by the scan, the (index, observed ticket) pairs of completed wait
checks, and counts of occupancy increments/decrements performed). -/
structure TState where
  pc : PC := .idle
  iter : Nat := 0
  si : Nat := 0
  maxv : Int := 0
  wj : Nat := 0
  reg : Int := 0
  reg2 : Int := 0
  scanned : List Int := []
  passed : List (Nat × Int) := []
  incC : Nat := 0
  decC : Nat := 0
  deriving DecidableEq, Repr

/-- Global state: the shared arrays `choosing` and `number`, the three
verification globals of part_000 (lines 24-27), and every thread's local
state. -/
structure GState (N : Nat) where
  choosing : Fin N → Bool
  number : Fin N → Int
  inside : Int
  counter : Int
  violation : Bool
  tstate : Fin N → TState

variable {N : Nat}

/-- Replace thread `t`'s local state. -/
def setT (s : GState N) (t : Fin N) (ts : TState) : GState N :=
  { s with tstate := Function.update s.tstate t ts }

/-- One execution step of thread `t` (deterministic given which thread is
scheduled; the scheduler choice is the only nondeterminism).  Guarded spins
(line 56 and lines 60-68 of part_000) and a finished thread leave the state
unchanged.  Every load here returns the slot's current value: for the
doorway scan this STRENGTHENS the source's `memory_order_relaxed` load
(line 38) to sequential consistency; the relation `WStep` below additionally
admits that load's stale-read behaviours, which the C++ model permits. -/
def stepOf (K : Nat) (t : Fin N) (s : GState N) : GState N :=
  match (s.tstate t).pc with
  | .idle =>
    if (s.tstate t).iter < K then setT s t { s.tstate t with pc := .setChoosing }
    else setT s t { s.tstate t with pc := .done }
  | .setChoosing =>
    { setT s t { s.tstate t with pc := .scan, si := 0, maxv := 0, scanned := [] } with
      choosing := Function.update s.choosing t true }
  | .scan =>
    if h : (s.tstate t).si < N then
      setT s t { s.tstate t with
        si := (s.tstate t).si + 1
        maxv := max (s.tstate t).maxv (s.number ⟨(s.tstate t).si, h⟩)
        scanned := (s.tstate t).scanned ++ [s.number ⟨(s.tstate t).si, h⟩] }
    else setT s t { s.tstate t with pc := .setNumber }
  | .setNumber =>
    { setT s t { s.tstate t with pc := .clearChoosing } with
      number := Function.update s.number t ((s.tstate t).maxv + 1) }
  | .clearChoosing =>
    { setT s t { s.tstate t with pc := .waitLoop, wj := 0, passed := [] } with
      choosing := Function.update s.choosing t false }
  | .waitLoop =>
    if (s.tstate t).wj < N then
      if (s.tstate t).wj = t.val then setT s t { s.tstate t with wj := (s.tstate t).wj + 1 }
      else setT s t { s.tstate t with pc := .waitChoosing }
    else setT s t { s.tstate t with pc := .csEnter }
  | .waitChoosing =>
    if h : (s.tstate t).wj < N then
      if s.choosing ⟨(s.tstate t).wj, h⟩ then s
      else setT s t { s.tstate t with pc := .waitNumber }
    else s
  | .waitNumber =>
    if h : (s.tstate t).wj < N then
      if waitCond (s.number ⟨(s.tstate t).wj, h⟩) (s.tstate t).wj (s.number t) t.val then s
      else setT s t { s.tstate t with
        pc := .waitLoop
        wj := (s.tstate t).wj + 1
        passed := (s.tstate t).passed ++ [((s.tstate t).wj, s.number ⟨(s.tstate t).wj, h⟩)] }
    else s
  | .csEnter =>
    { setT s t { s.tstate t with pc := .csViol1, reg := s.inside, incC := (s.tstate t).incC + 1 } with
      inside := s.inside + 1 }
  | .csViol1 =>
    if (s.tstate t).reg > 0 then
      { setT s t { s.tstate t with pc := .csCount } with violation := true }
    else setT s t { s.tstate t with pc := .csCount }
  | .csCount =>
    { setT s t { s.tstate t with pc := .csCheck2 } with counter := s.counter + 1 }
  | .csCheck2 =>
    setT s t { s.tstate t with pc := .csViol2, reg2 := s.inside }
  | .csViol2 =>
    if (s.tstate t).reg2 > 1 then
      { setT s t { s.tstate t with pc := .csExit } with violation := true }
    else setT s t { s.tstate t with pc := .csExit }
  | .csExit =>
    { setT s t { s.tstate t with pc := .unlockStep, decC := (s.tstate t).decC + 1 } with
      inside := s.inside - 1 }
  | .unlockStep =>
    { setT s t { s.tstate t with pc := .idle, iter := (s.tstate t).iter + 1 } with
      number := Function.update s.number t 0 }
  | .done => s

/-- The state after part_000's `main` has initialised the shared arrays and
the verification globals (lines 132-139) and spawned the threads, before any
thread has run. -/
def init (N : Nat) : GState N :=
  { choosing := fun _ => false
    number := fun _ => 0
    inside := 0
    counter := 0
    violation := false
    tstate := fun _ => {} }

/-- One scheduler-chosen step. -/
def StepRel (K : Nat) (a b : GState N) : Prop := ∃ t : Fin N, b = stepOf K t a

/-- States reachable in a run with parameters `N`, `K`. -/
def Reach (N K : Nat) (s : GState N) : Prop :=
  Relation.ReflTransGen (StepRel K) (init N) s

/-! Region predicates over the program counter. -/

/-- Program counters at which the thread's `choosing` flag is set: from right
after the flag store of line 34 up to and including the flag clear of
line 47. -/
def doorwayFlag : PC → Bool
  | .scan | .setNumber | .clearChoosing => true
  | _ => false

/-- Program counters at which the thread's `number` entry holds its chosen
ticket `maxv + 1`: from right after the store of line 44 up to and including
the zero store of `unlock`. -/
def hasTicket : PC → Bool
  | .clearChoosing | .waitLoop | .waitChoosing | .waitNumber
  | .csEnter | .csViol1 | .csCount | .csCheck2 | .csViol2 | .csExit
  | .unlockStep => true
  | _ => false

/-- The wait loop of `lock` (steps 5 of the algorithm). -/
def inWait : PC → Bool
  | .waitLoop | .waitChoosing | .waitNumber => true
  | _ => false

/-- The critical section: from the return of `lock` (the occupancy
`fetch_add`) up to and including the occupancy `fetch_sub`. -/
def inCs : PC → Bool
  | .csEnter | .csViol1 | .csCount | .csCheck2 | .csViol2 | .csExit => true
  | _ => false

/-- Counters whose occupancy increment has executed and whose decrement has
not: exactly the value `inside_critical_section_count` accounts for. -/
def occupied : PC → Bool
  | .csViol1 | .csCount | .csCheck2 | .csViol2 | .csExit => true
  | _ => false

/-- Program counters at which this iteration's `shared_counter` increment has
already executed. -/
def counted : PC → Bool
  | .csCheck2 | .csViol2 | .csExit | .unlockStep => true
  | _ => false

/-- Program counters at which this iteration's occupancy increment has
already executed. -/
def incRegion : PC → Bool
  | .csViol1 | .csCount | .csCheck2 | .csViol2 | .csExit | .unlockStep => true
  | _ => false

/-- Any point strictly inside an iteration of `worker_thread`. -/
def activePC : PC → Bool
  | .idle | .done => false
  | _ => true

/-- Occupancy contribution of one thread. -/
def insideOf (pc : PC) : Int := if occupied pc then 1 else 0

/-- Contribution of one thread to `shared_counter`: one per finished
iteration plus one if the current iteration's increment has executed. -/
def contribOf (ts : TState) : Int := ts.iter + (if counted ts.pc then 1 else 0)

/-- The priority relation of the bakery argument, adapted from the inductive
invariant of Lamport's atomic bakery proof: thread `i` holds a ticket, and
thread `j` is in a state from which it cannot enter the critical section
before `i`.  Cases on `j`'s program counter: outside the competition
(`idle`, `done`, about to raise its flag, or about to drop its ticket)
nothing more is needed; in the scan, either `j` has not yet read slot `i`
(so its maximum will absorb `i`'s ticket) or its running maximum already
dominates it; about to write its ticket, its maximum dominates `i`'s ticket;
after its ticket write, `i`'s (ticket, id) pair is lexicographically
smaller, and if `j` is in its wait loop it has not yet passed slot `i`. -/
def Before (s : GState N) (i j : Fin N) : Prop :=
  0 < s.number i ∧
  (match (s.tstate j).pc with
   | .idle | .done | .setChoosing => True
   | .scan => (s.tstate j).si ≤ i.val ∨ s.number i ≤ (s.tstate j).maxv
   | .setNumber => s.number i ≤ (s.tstate j).maxv
   | .clearChoosing => lexLt (s.number i, i.val) (s.number j, j.val)
   | .waitLoop | .waitChoosing | .waitNumber =>
     lexLt (s.number i, i.val) (s.number j, j.val) ∧ (s.tstate j).wj ≤ i.val
   | .csEnter | .csViol1 | .csCount | .csCheck2 | .csViol2 | .csExit =>
     lexLt (s.number i, i.val) (s.number j, j.val)
   | .unlockStep => True)

/-- The other participants' indices below `m`: the wait-loop indices a
thread with id `tv` has completed once its loop counter reaches `m`. -/
def othersBelow (m tv : Nat) : List Nat :=
  (List.range m).filter (fun x => x ≠ tv)

/-- Thread-local part of the inductive invariant, about one thread's shared
slots (its choosing flag `c`, its ticket `n`) and local state `ts`; `tv` is
the thread's id.  It ties the flag and the ticket value to the program
counter, bounds the loop counters, and pins down the ghost history. -/
structure LocalOK (N K tv : Nat) (c : Bool) (n : Int) (ts : TState) : Prop where
  choosing_eq : c = doorwayFlag ts.pc
  number_pos : hasTicket ts.pc = true → n = ts.maxv + 1
  number_zero : hasTicket ts.pc = false → n = 0
  maxv_nonneg : 0 ≤ ts.maxv
  iter_le : ts.iter ≤ K
  active_iter_lt : activePC ts.pc = true → ts.iter < K
  done_iter : ts.pc = .done → ts.iter = K
  scan_si_le : ts.pc = .scan → ts.si ≤ N
  scan_ghost : ts.pc = .scan →
    ts.scanned.length = ts.si ∧ ts.maxv = ts.scanned.foldl max 0 ∧
      ∀ v ∈ ts.scanned, 0 ≤ v
  setnum_ghost : ts.pc = .setNumber →
    ts.scanned.length = N ∧ ts.maxv = ts.scanned.foldl max 0 ∧
      ∀ v ∈ ts.scanned, 0 ≤ v
  waitLoop_wj_le : ts.pc = .waitLoop → ts.wj ≤ N
  waitCh_wj : ts.pc = .waitChoosing ∨ ts.pc = .waitNumber → ts.wj < N ∧ ts.wj ≠ tv
  passed_wait : inWait ts.pc = true →
    ts.passed.map Prod.fst = othersBelow ts.wj tv
  passed_cs : inCs ts.pc = true ∨ ts.pc = .unlockStep →
    ts.passed.map Prod.fst = othersBelow N tv
  passed_ok : inWait ts.pc = true ∨ inCs ts.pc = true ∨ ts.pc = .unlockStep →
    ∀ p ∈ ts.passed, ¬ waitCond p.2 p.1 n tv
  reg_zero : ts.pc = .csViol1 → ts.reg = 0
  reg2_one : ts.pc = .csViol2 → ts.reg2 = 1
  incC_eq : (ts.incC : Int) = ts.iter + (if incRegion ts.pc then 1 else 0)
  decC_eq : (ts.decC : Int) = ts.iter + (if ts.pc = .unlockStep then 1 else 0)

/-- The inductive invariant of the part_000 run: every thread's local
invariant, the two counter accountings, the violation flag, and the bakery
priority argument (threads already checked by a waiter, or checked by a
critical-section holder, stay behind it; a waiter's current target cannot
slip past it through the doorway). -/
structure Inv (N K : Nat) (s : GState N) : Prop where
  locals : ∀ t : Fin N, LocalOK N K t.val (s.choosing t) (s.number t) (s.tstate t)
  inside_eq : s.inside = Finset.univ.sum (fun t : Fin N => insideOf (s.tstate t).pc)
  counter_eq : s.counter = Finset.univ.sum (fun t : Fin N => contribOf (s.tstate t))
  violation_false : s.violation = false
  wait_checked : ∀ i j : Fin N, i ≠ j → inWait (s.tstate i).pc = true →
    j.val < (s.tstate i).wj → Before s i j
  cs_before : ∀ i j : Fin N, i ≠ j → inCs (s.tstate i).pc = true → Before s i j
  w2_target : ∀ i k : Fin N, (s.tstate i).pc = .waitNumber →
    k.val = (s.tstate i).wj →
    ((s.tstate k).pc = .scan →
      (s.tstate k).si ≤ i.val ∨ s.number i ≤ (s.tstate k).maxv) ∧
    ((s.tstate k).pc = .setNumber → s.number i ≤ (s.tstate k).maxv)

/-- A demonstration schedule: thread 0 of a two-thread, one-iteration run
stepped repeatedly from the initial state. -/
def demo (n : Nat) : GState 2 :=
  (stepOf 1 (0 : Fin 2))^[n] (init 2)

/-- Second phase of the demonstration schedule: after 20 steps of thread 0,
thread 1 of the two-thread, one-iteration run is stepped repeatedly. -/
def demoB (n : Nat) : GState 2 :=
  (stepOf 1 (1 : Fin 2))^[n] (demo 20)

/-- The weak-memory step relation of the part_000 run.  Its first
constructor admits every step of `stepOf` (the execution in which each load
returns the slot's current value is always among the executions the C++
model allows).  Its second constructor is the one behaviour `stepOf`
excludes: the doorway scan load — the single access `lock` performs with
`memory_order_relaxed` (line 38) — may return the stale initial 0 of a slot
other than the reader's own.  With no synchronises-with edge from the slot
owner's seq_cst ticket store to this relaxed load, and no coherence
constraint on the reader's first load of another participant's slot (the
only way the execution exhibited below uses it), nothing in the C++ memory
model obliges the load to observe that store. -/
inductive WStep (K : Nat) : GState N → GState N → Prop
  | strong (t : Fin N) (s : GState N) : WStep K s (stepOf K t s)
  | staleScan (t : Fin N) (s : GState N) (hpc : (s.tstate t).pc = .scan)
      (h : (s.tstate t).si < N) (hown : (s.tstate t).si ≠ t.val) :
      WStep K s (setT s t { s.tstate t with
        si := (s.tstate t).si + 1
        maxv := max (s.tstate t).maxv 0
        scanned := (s.tstate t).scanned ++ [0] })

/-- States reachable under the weak-memory semantics. -/
def WReach (N K : Nat) (s : GState N) : Prop :=
  Relation.ReflTransGen (WStep K) (init N) s

/-- Weak-memory demonstration, first phase: thread 1 of a two-thread,
one-iteration run goes through its doorway (taking ticket 1), passes its
wait, and performs the occupancy increment: 13 steps, ending just after
`inside_critical_section_count.fetch_add(1)` with the lock held. -/
def wdemoA : GState 2 := (stepOf 1 (1 : Fin 2))^[13] (init 2)

/-- Thread 0 starts its doorway and scans slot 0 (3 further steps, ending
mid-scan at slot 1). -/
def wdemoB : GState 2 := (stepOf 1 (0 : Fin 2))^[3] wdemoA

/-- The stale relaxed read: thread 0's doorway scan reads slot 1 as 0 even
though thread 1's ticket store has already executed — thread 0's first load
of that slot, with no happens-before edge from thread 1's store. -/
def wdemoC : GState 2 :=
  setT wdemoB 0 { wdemoB.tstate 0 with
    si := (wdemoB.tstate 0).si + 1
    maxv := max (wdemoB.tstate 0).maxv 0
    scanned := (wdemoB.tstate 0).scanned ++ [0] }

/-- Thread 0 finishes its doorway with the same ticket 1 as thread 1, wins
the (ticket, id) tie-break against the thread already inside, passes its
wait, performs the occupancy increment next to thread 1 and stores true
into the violation flag: 10 further steps. -/
def wdemoD : GState 2 := (stepOf 1 (0 : Fin 2))^[10] wdemoC

end Bakery

/-! ### Order and list lemmas used by the bakery argument -/

theorem lexLt_asymm {a b : Int × Nat} (h1 : lexLt a b) (h2 : lexLt b a) : False := by
  rcases h1 with h1 | ⟨e1, l1⟩ <;> rcases h2 with h2 | ⟨e2, l2⟩ <;> omega

theorem lexLt_total {a b : Int × Nat} (h : a.2 ≠ b.2) : lexLt a b ∨ lexLt b a := by
  unfold lexLt; omega

/-- The two sources' wait condition is exactly: thread j holds a ticket and
its (ticket, id) pair is lexicographically smaller than ours. -/
theorem waitCond_iff_lexLt (tj : Int) (j : Nat) (ti : Int) (i : Nat) :
    waitCond tj j ti i ↔ tj ≠ 0 ∧ lexLt (tj, j) (ti, i) := by
  unfold waitCond lexLt; simp

theorem le_foldl_max (l : List Int) (a : Int) : a ≤ l.foldl max a := by
  induction l generalizing a with
  | nil => exact le_refl a
  | cons x t ih => exact le_trans (le_max_left a x) (ih (max a x))

theorem mem_le_foldl_max (l : List Int) (a v : Int) (hv : v ∈ l) : v ≤ l.foldl max a := by
  induction l generalizing a with
  | nil => simp at hv
  | cons x t ih =>
    rcases List.mem_cons.mp hv with rfl | hm
    · exact le_trans (le_max_right a v) (le_foldl_max t (max a v))
    · exact ih (max a x) hm

theorem foldl_max_mem_or (l : List Int) (a : Int) : l.foldl max a = a ∨ l.foldl max a ∈ l := by
  induction l generalizing a with
  | nil => exact Or.inl rfl
  | cons x t ih =>
    have hc : List.foldl max a (x :: t) = List.foldl max (max a x) t := rfl
    rcases ih (max a x) with h | h
    · rcases max_choice a x with hax | hax
      · exact Or.inl (by rw [hc, h, hax])
      · exact Or.inr (by rw [hc, h, hax]; exact List.mem_cons_self x t)
    · exact Or.inr (by rw [hc]; exact List.mem_cons_of_mem _ h)

/-- On a nonempty list of nonnegative values the scan's fold is attained. -/
theorem foldl_max_attained (l : List Int) (hne : l ≠ []) (hpos : ∀ v ∈ l, 0 ≤ v) :
    ∃ v ∈ l, l.foldl max 0 = v := by
  rcases foldl_max_mem_or l 0 with h | h
  · rcases l with _ | ⟨x, t⟩
    · exact absurd rfl hne
    · refine ⟨x, List.mem_cons_self x t, ?_⟩
      have hx := hpos x (List.mem_cons_self x t)
      have hle : x ≤ (x :: t).foldl max 0 := mem_le_foldl_max _ 0 x (List.mem_cons_self x t)
      omega
  · exact ⟨_, h, rfl⟩

namespace Bakery

theorem othersBelow_zero (tv : Nat) : othersBelow 0 tv = [] := rfl

theorem othersBelow_succ_eq (m tv : Nat) (h : m = tv) :
    othersBelow (m + 1) tv = othersBelow m tv := by
  unfold othersBelow
  rw [List.range_succ, List.filter_append]
  simp [h]

theorem othersBelow_succ_ne (m tv : Nat) (h : m ≠ tv) :
    othersBelow (m + 1) tv = othersBelow m tv ++ [m] := by
  unfold othersBelow
  rw [List.range_succ, List.filter_append]
  simp [h]

theorem othersBelow_sorted (m tv : Nat) :
    List.Pairwise (· < ·) (othersBelow m tv) :=
  List.Pairwise.filter _ (List.pairwise_lt_range m)

theorem mem_othersBelow (m tv x : Nat) :
    x ∈ othersBelow m tv ↔ x < m ∧ x ≠ tv := by
  unfold othersBelow
  simp [List.mem_filter, List.mem_range]

end Bakery

namespace Bakery

variable {N : Nat}

theorem stepOf_tstate_ne (K : Nat) (t u : Fin N) (h : u ≠ t) (s : GState N) :
    (stepOf K t s).tstate u = s.tstate u := by
  unfold stepOf
  cases hpc : (s.tstate t).pc <;> simp only [setT] <;> (repeat' split) <;>
    simp [Function.update_noteq h]

theorem stepOf_number_ne (K : Nat) (t u : Fin N) (h : u ≠ t) (s : GState N) :
    (stepOf K t s).number u = s.number u := by
  unfold stepOf
  cases hpc : (s.tstate t).pc <;> simp only [setT] <;> (repeat' split) <;>
    simp [Function.update_noteq h]

theorem stepOf_choosing_ne (K : Nat) (t u : Fin N) (h : u ≠ t) (s : GState N) :
    (stepOf K t s).choosing u = s.choosing u := by
  unfold stepOf
  cases hpc : (s.tstate t).pc <;> simp only [setT] <;> (repeat' split) <;>
    simp [Function.update_noteq h]

/-- Every write the run ever performs to the violation flag stores `true`:
a step either leaves the flag alone or sets it. -/
theorem stepOf_violation_mono (K : Nat) (t : Fin N) (s : GState N) :
    (stepOf K t s).violation = s.violation ∨ (stepOf K t s).violation = true := by
  unfold stepOf
  cases hpc : (s.tstate t).pc <;> simp only [setT] <;> (repeat' split) <;> simp

section Shapes

variable (K : Nat) (t : Fin N) (s : GState N)

theorem step_idle_lt (hpc : (s.tstate t).pc = .idle) (hit : (s.tstate t).iter < K) :
    stepOf K t s = setT s t { s.tstate t with pc := .setChoosing } := by
  unfold stepOf; simp [hpc, hit]

theorem step_idle_ge (hpc : (s.tstate t).pc = .idle) (hit : ¬ (s.tstate t).iter < K) :
    stepOf K t s = setT s t { s.tstate t with pc := .done } := by
  unfold stepOf; simp [hpc, hit]

theorem step_setChoosing (hpc : (s.tstate t).pc = .setChoosing) :
    stepOf K t s =
      { setT s t { s.tstate t with pc := .scan, si := 0, maxv := 0, scanned := [] } with
        choosing := Function.update s.choosing t true } := by
  unfold stepOf; simp [hpc]

theorem step_scan_lt (hpc : (s.tstate t).pc = .scan) (h : (s.tstate t).si < N) :
    stepOf K t s = setT s t { s.tstate t with
      si := (s.tstate t).si + 1
      maxv := max (s.tstate t).maxv (s.number ⟨(s.tstate t).si, h⟩)
      scanned := (s.tstate t).scanned ++ [s.number ⟨(s.tstate t).si, h⟩] } := by
  unfold stepOf; simp [hpc, h]

theorem step_scan_ge (hpc : (s.tstate t).pc = .scan) (h : ¬ (s.tstate t).si < N) :
    stepOf K t s = setT s t { s.tstate t with pc := .setNumber } := by
  unfold stepOf; simp [hpc, h]

theorem step_setNumber (hpc : (s.tstate t).pc = .setNumber) :
    stepOf K t s =
      { setT s t { s.tstate t with pc := .clearChoosing } with
        number := Function.update s.number t ((s.tstate t).maxv + 1) } := by
  unfold stepOf; simp [hpc]

theorem step_clearChoosing (hpc : (s.tstate t).pc = .clearChoosing) :
    stepOf K t s =
      { setT s t { s.tstate t with pc := .waitLoop, wj := 0, passed := [] } with
        choosing := Function.update s.choosing t false } := by
  unfold stepOf; simp [hpc]

theorem step_waitLoop_self (hpc : (s.tstate t).pc = .waitLoop)
    (hs : (s.tstate t).wj = t.val) :
    stepOf K t s = setT s t { s.tstate t with wj := (s.tstate t).wj + 1 } := by
  unfold stepOf; simp [hpc, hs]

theorem step_waitLoop_other (hpc : (s.tstate t).pc = .waitLoop)
    (h : (s.tstate t).wj < N) (hs : (s.tstate t).wj ≠ t.val) :
    stepOf K t s = setT s t { s.tstate t with pc := .waitChoosing } := by
  unfold stepOf; simp [hpc, h, hs]

theorem step_waitLoop_all (hpc : (s.tstate t).pc = .waitLoop)
    (h : ¬ (s.tstate t).wj < N) :
    stepOf K t s = setT s t { s.tstate t with pc := .csEnter } := by
  unfold stepOf; simp [hpc, h]

theorem step_waitChoosing_spin (hpc : (s.tstate t).pc = .waitChoosing)
    (h : (s.tstate t).wj < N) (hc : s.choosing ⟨(s.tstate t).wj, h⟩ = true) :
    stepOf K t s = s := by
  unfold stepOf; simp [hpc, h, hc]

theorem step_waitChoosing_pass (hpc : (s.tstate t).pc = .waitChoosing)
    (h : (s.tstate t).wj < N) (hc : s.choosing ⟨(s.tstate t).wj, h⟩ = false) :
    stepOf K t s = setT s t { s.tstate t with pc := .waitNumber } := by
  unfold stepOf; simp [hpc, h, hc]

theorem step_waitNumber_spin (hpc : (s.tstate t).pc = .waitNumber)
    (h : (s.tstate t).wj < N)
    (hc : waitCond (s.number ⟨(s.tstate t).wj, h⟩) (s.tstate t).wj (s.number t) t.val) :
    stepOf K t s = s := by
  unfold stepOf; simp [hpc, h, hc]

theorem step_waitNumber_pass (hpc : (s.tstate t).pc = .waitNumber)
    (h : (s.tstate t).wj < N)
    (hc : ¬ waitCond (s.number ⟨(s.tstate t).wj, h⟩) (s.tstate t).wj (s.number t) t.val) :
    stepOf K t s = setT s t { s.tstate t with
      pc := .waitLoop
      wj := (s.tstate t).wj + 1
      passed := (s.tstate t).passed ++ [((s.tstate t).wj, s.number ⟨(s.tstate t).wj, h⟩)] } := by
  unfold stepOf; simp [hpc, h, hc]

theorem step_csEnter (hpc : (s.tstate t).pc = .csEnter) :
    stepOf K t s =
      { setT s t { s.tstate t with
          pc := .csViol1, reg := s.inside, incC := (s.tstate t).incC + 1 } with
        inside := s.inside + 1 } := by
  unfold stepOf; simp [hpc]

theorem step_csViol1 (hpc : (s.tstate t).pc = .csViol1) (h : ¬ (s.tstate t).reg > 0) :
    stepOf K t s = setT s t { s.tstate t with pc := .csCount } := by
  unfold stepOf; simp [hpc, h]

theorem step_csCount (hpc : (s.tstate t).pc = .csCount) :
    stepOf K t s =
      { setT s t { s.tstate t with pc := .csCheck2 } with counter := s.counter + 1 } := by
  unfold stepOf; simp [hpc]

theorem step_csCheck2 (hpc : (s.tstate t).pc = .csCheck2) :
    stepOf K t s = setT s t { s.tstate t with pc := .csViol2, reg2 := s.inside } := by
  unfold stepOf; simp [hpc]

theorem step_csViol2 (hpc : (s.tstate t).pc = .csViol2) (h : ¬ (s.tstate t).reg2 > 1) :
    stepOf K t s = setT s t { s.tstate t with pc := .csExit } := by
  unfold stepOf; simp [hpc, h]

theorem step_csExit (hpc : (s.tstate t).pc = .csExit) :
    stepOf K t s =
      { setT s t { s.tstate t with
          pc := .unlockStep, decC := (s.tstate t).decC + 1 } with
        inside := s.inside - 1 } := by
  unfold stepOf; simp [hpc]

theorem step_unlock (hpc : (s.tstate t).pc = .unlockStep) :
    stepOf K t s =
      { setT s t { s.tstate t with pc := .idle, iter := (s.tstate t).iter + 1 } with
        number := Function.update s.number t 0 } := by
  unfold stepOf; simp [hpc]

theorem step_done (hpc : (s.tstate t).pc = .done) : stepOf K t s = s := by
  unfold stepOf; simp [hpc]

end Shapes

end Bakery

/-! ### Preservation of the thread-local invariant, one lemma per
instruction of the worker loop -/

namespace Bakery

variable {N K tv : Nat} {c : Bool} {n : Int} {ts : TState}

theorem localOK_idle_lt (h : LocalOK N K tv c n ts) (hpc : ts.pc = .idle)
    (hit : ts.iter < K) : LocalOK N K tv c n { ts with pc := .setChoosing } := by
  obtain ⟨h1, h2, h3, h4, h5, h6, h7, h8, h9, h10, h11, h12, h13, h14, h15, h16, h17, h18, h19⟩ := h
  refine ⟨?_, ?_, ?_, ?_, ?_, ?_, ?_, ?_, ?_, ?_, ?_, ?_, ?_, ?_, ?_, ?_, ?_, ?_, ?_⟩ <;>
    simp_all [doorwayFlag, hasTicket, inWait, inCs, counted, incRegion, activePC,
      othersBelow_zero]

theorem localOK_idle_ge (h : LocalOK N K tv c n ts) (hpc : ts.pc = .idle)
    (hit : ¬ ts.iter < K) : LocalOK N K tv c n { ts with pc := .done } := by
  obtain ⟨h1, h2, h3, h4, h5, h6, h7, h8, h9, h10, h11, h12, h13, h14, h15, h16, h17, h18, h19⟩ := h
  refine ⟨?_, ?_, ?_, ?_, ?_, ?_, ?_, ?_, ?_, ?_, ?_, ?_, ?_, ?_, ?_, ?_, ?_, ?_, ?_⟩ <;>
    simp_all [doorwayFlag, hasTicket, inWait, inCs, counted, incRegion, activePC,
      othersBelow_zero] <;> omega

theorem localOK_setChoosing (h : LocalOK N K tv c n ts) (hpc : ts.pc = .setChoosing) :
    LocalOK N K tv true n { ts with pc := .scan, si := 0, maxv := 0, scanned := [] } := by
  obtain ⟨h1, h2, h3, h4, h5, h6, h7, h8, h9, h10, h11, h12, h13, h14, h15, h16, h17, h18, h19⟩ := h
  refine ⟨?_, ?_, ?_, ?_, ?_, ?_, ?_, ?_, ?_, ?_, ?_, ?_, ?_, ?_, ?_, ?_, ?_, ?_, ?_⟩ <;>
    simp_all [doorwayFlag, hasTicket, inWait, inCs, counted, incRegion, activePC,
      othersBelow_zero]

theorem localOK_scan_lt (h : LocalOK N K tv c n ts) (hpc : ts.pc = .scan)
    (hsi : ts.si < N) (v : Int) (hv : 0 ≤ v) :
    LocalOK N K tv c n { ts with
      si := ts.si + 1, maxv := max ts.maxv v, scanned := ts.scanned ++ [v] } := by
  obtain ⟨h1, h2, h3, h4, h5, h6, h7, h8, h9, h10, h11, h12, h13, h14, h15, h16, h17, h18, h19⟩ := h
  obtain ⟨hg1, hg2, hg3⟩ := h9 hpc
  refine ⟨?_, ?_, ?_, ?_, ?_, ?_, ?_, ?_, ?_, ?_, ?_, ?_, ?_, ?_, ?_, ?_, ?_, ?_, ?_⟩ <;>
    simp_all [doorwayFlag, hasTicket, inWait, inCs, counted, incRegion, activePC,
      List.foldl_append]
  · omega
  · rintro w (hw | rfl)
    · exact hg3 w hw
    · exact hv

theorem localOK_scan_ge (h : LocalOK N K tv c n ts) (hpc : ts.pc = .scan)
    (hsi : ¬ ts.si < N) : LocalOK N K tv c n { ts with pc := .setNumber } := by
  obtain ⟨h1, h2, h3, h4, h5, h6, h7, h8, h9, h10, h11, h12, h13, h14, h15, h16, h17, h18, h19⟩ := h
  refine ⟨?_, ?_, ?_, ?_, ?_, ?_, ?_, ?_, ?_, ?_, ?_, ?_, ?_, ?_, ?_, ?_, ?_, ?_, ?_⟩ <;>
    simp_all [doorwayFlag, hasTicket, inWait, inCs, counted, incRegion, activePC,
      othersBelow_zero] <;> omega

theorem localOK_setNumber (h : LocalOK N K tv c n ts) (hpc : ts.pc = .setNumber) :
    LocalOK N K tv c (ts.maxv + 1) { ts with pc := .clearChoosing } := by
  obtain ⟨h1, h2, h3, h4, h5, h6, h7, h8, h9, h10, h11, h12, h13, h14, h15, h16, h17, h18, h19⟩ := h
  refine ⟨?_, ?_, ?_, ?_, ?_, ?_, ?_, ?_, ?_, ?_, ?_, ?_, ?_, ?_, ?_, ?_, ?_, ?_, ?_⟩ <;>
    simp_all [doorwayFlag, hasTicket, inWait, inCs, counted, incRegion, activePC,
      othersBelow_zero]

theorem localOK_clearChoosing (h : LocalOK N K tv c n ts) (hpc : ts.pc = .clearChoosing) :
    LocalOK N K tv false n { ts with pc := .waitLoop, wj := 0, passed := [] } := by
  obtain ⟨h1, h2, h3, h4, h5, h6, h7, h8, h9, h10, h11, h12, h13, h14, h15, h16, h17, h18, h19⟩ := h
  refine ⟨?_, ?_, ?_, ?_, ?_, ?_, ?_, ?_, ?_, ?_, ?_, ?_, ?_, ?_, ?_, ?_, ?_, ?_, ?_⟩ <;>
    simp_all [doorwayFlag, hasTicket, inWait, inCs, counted, incRegion, activePC,
      othersBelow_zero]

theorem localOK_waitLoop_self (h : LocalOK N K tv c n ts) (hpc : ts.pc = .waitLoop)
    (htv : tv < N) (hs : ts.wj = tv) :
    LocalOK N K tv c n { ts with wj := ts.wj + 1 } := by
  obtain ⟨h1, h2, h3, h4, h5, h6, h7, h8, h9, h10, h11, h12, h13, h14, h15, h16, h17, h18, h19⟩ := h
  have hob : othersBelow (ts.wj + 1) tv = othersBelow ts.wj tv :=
    othersBelow_succ_eq ts.wj tv hs
  refine ⟨?_, ?_, ?_, ?_, ?_, ?_, ?_, ?_, ?_, ?_, ?_, ?_, ?_, ?_, ?_, ?_, ?_, ?_, ?_⟩ <;>
    simp_all [doorwayFlag, hasTicket, inWait, inCs, counted, incRegion, activePC,
      othersBelow_zero] <;> omega

theorem localOK_waitLoop_other (h : LocalOK N K tv c n ts) (hpc : ts.pc = .waitLoop)
    (hwj : ts.wj < N) (hs : ts.wj ≠ tv) :
    LocalOK N K tv c n { ts with pc := .waitChoosing } := by
  obtain ⟨h1, h2, h3, h4, h5, h6, h7, h8, h9, h10, h11, h12, h13, h14, h15, h16, h17, h18, h19⟩ := h
  refine ⟨?_, ?_, ?_, ?_, ?_, ?_, ?_, ?_, ?_, ?_, ?_, ?_, ?_, ?_, ?_, ?_, ?_, ?_, ?_⟩ <;>
    simp_all [doorwayFlag, hasTicket, inWait, inCs, counted, incRegion, activePC,
      othersBelow_zero]

theorem localOK_waitLoop_all (h : LocalOK N K tv c n ts) (hpc : ts.pc = .waitLoop)
    (hwj : ¬ ts.wj < N) : LocalOK N K tv c n { ts with pc := .csEnter } := by
  obtain ⟨h1, h2, h3, h4, h5, h6, h7, h8, h9, h10, h11, h12, h13, h14, h15, h16, h17, h18, h19⟩ := h
  have hN : ts.wj = N := le_antisymm (h11 hpc) (le_of_not_lt hwj)
  refine ⟨?_, ?_, ?_, ?_, ?_, ?_, ?_, ?_, ?_, ?_, ?_, ?_, ?_, ?_, ?_, ?_, ?_, ?_, ?_⟩ <;>
    simp_all [doorwayFlag, hasTicket, inWait, inCs, counted, incRegion, activePC,
      othersBelow_zero]

theorem localOK_waitChoosing_pass (h : LocalOK N K tv c n ts)
    (hpc : ts.pc = .waitChoosing) : LocalOK N K tv c n { ts with pc := .waitNumber } := by
  obtain ⟨h1, h2, h3, h4, h5, h6, h7, h8, h9, h10, h11, h12, h13, h14, h15, h16, h17, h18, h19⟩ := h
  refine ⟨?_, ?_, ?_, ?_, ?_, ?_, ?_, ?_, ?_, ?_, ?_, ?_, ?_, ?_, ?_, ?_, ?_, ?_, ?_⟩ <;>
    simp_all [doorwayFlag, hasTicket, inWait, inCs, counted, incRegion, activePC,
      othersBelow_zero]

theorem localOK_waitNumber_pass (h : LocalOK N K tv c n ts)
    (hpc : ts.pc = .waitNumber) (v : Int) (hnc : ¬ waitCond v ts.wj n tv) :
    LocalOK N K tv c n { ts with
      pc := .waitLoop, wj := ts.wj + 1, passed := ts.passed ++ [(ts.wj, v)] } := by
  obtain ⟨h1, h2, h3, h4, h5, h6, h7, h8, h9, h10, h11, h12, h13, h14, h15, h16, h17, h18, h19⟩ := h
  obtain ⟨hwjN, hwjt⟩ := h12 (Or.inr hpc)
  have hob : othersBelow (ts.wj + 1) tv = othersBelow ts.wj tv ++ [ts.wj] :=
    othersBelow_succ_ne ts.wj tv hwjt
  refine ⟨?_, ?_, ?_, ?_, ?_, ?_, ?_, ?_, ?_, ?_, ?_, ?_, ?_, ?_, ?_, ?_, ?_, ?_, ?_⟩ <;>
    simp_all [doorwayFlag, hasTicket, inWait, inCs, counted, incRegion, activePC,
      othersBelow_zero]
  · omega
  · rintro a b (hab | ⟨rfl, rfl⟩)
    · exact h15 a b hab
    · exact hnc

theorem localOK_csEnter (h : LocalOK N K tv c n ts) (hpc : ts.pc = .csEnter)
    (r : Int) (hr : r = 0) :
    LocalOK N K tv c n { ts with pc := .csViol1, reg := r, incC := ts.incC + 1 } := by
  obtain ⟨h1, h2, h3, h4, h5, h6, h7, h8, h9, h10, h11, h12, h13, h14, h15, h16, h17, h18, h19⟩ := h
  refine ⟨?_, ?_, ?_, ?_, ?_, ?_, ?_, ?_, ?_, ?_, ?_, ?_, ?_, ?_, ?_, ?_, ?_, ?_, ?_⟩ <;>
    simp_all [doorwayFlag, hasTicket, inWait, inCs, counted, incRegion, activePC,
      othersBelow_zero]

theorem localOK_csViol1 (h : LocalOK N K tv c n ts) (hpc : ts.pc = .csViol1) :
    LocalOK N K tv c n { ts with pc := .csCount } := by
  obtain ⟨h1, h2, h3, h4, h5, h6, h7, h8, h9, h10, h11, h12, h13, h14, h15, h16, h17, h18, h19⟩ := h
  refine ⟨?_, ?_, ?_, ?_, ?_, ?_, ?_, ?_, ?_, ?_, ?_, ?_, ?_, ?_, ?_, ?_, ?_, ?_, ?_⟩ <;>
    simp_all [doorwayFlag, hasTicket, inWait, inCs, counted, incRegion, activePC,
      othersBelow_zero]

theorem localOK_csCount (h : LocalOK N K tv c n ts) (hpc : ts.pc = .csCount) :
    LocalOK N K tv c n { ts with pc := .csCheck2 } := by
  obtain ⟨h1, h2, h3, h4, h5, h6, h7, h8, h9, h10, h11, h12, h13, h14, h15, h16, h17, h18, h19⟩ := h
  refine ⟨?_, ?_, ?_, ?_, ?_, ?_, ?_, ?_, ?_, ?_, ?_, ?_, ?_, ?_, ?_, ?_, ?_, ?_, ?_⟩ <;>
    simp_all [doorwayFlag, hasTicket, inWait, inCs, counted, incRegion, activePC,
      othersBelow_zero]

theorem localOK_csCheck2 (h : LocalOK N K tv c n ts) (hpc : ts.pc = .csCheck2)
    (r2 : Int) (hr2 : r2 = 1) :
    LocalOK N K tv c n { ts with pc := .csViol2, reg2 := r2 } := by
  obtain ⟨h1, h2, h3, h4, h5, h6, h7, h8, h9, h10, h11, h12, h13, h14, h15, h16, h17, h18, h19⟩ := h
  refine ⟨?_, ?_, ?_, ?_, ?_, ?_, ?_, ?_, ?_, ?_, ?_, ?_, ?_, ?_, ?_, ?_, ?_, ?_, ?_⟩ <;>
    simp_all [doorwayFlag, hasTicket, inWait, inCs, counted, incRegion, activePC,
      othersBelow_zero]

theorem localOK_csViol2 (h : LocalOK N K tv c n ts) (hpc : ts.pc = .csViol2) :
    LocalOK N K tv c n { ts with pc := .csExit } := by
  obtain ⟨h1, h2, h3, h4, h5, h6, h7, h8, h9, h10, h11, h12, h13, h14, h15, h16, h17, h18, h19⟩ := h
  refine ⟨?_, ?_, ?_, ?_, ?_, ?_, ?_, ?_, ?_, ?_, ?_, ?_, ?_, ?_, ?_, ?_, ?_, ?_, ?_⟩ <;>
    simp_all [doorwayFlag, hasTicket, inWait, inCs, counted, incRegion, activePC,
      othersBelow_zero]

theorem localOK_csExit (h : LocalOK N K tv c n ts) (hpc : ts.pc = .csExit) :
    LocalOK N K tv c n { ts with pc := .unlockStep, decC := ts.decC + 1 } := by
  obtain ⟨h1, h2, h3, h4, h5, h6, h7, h8, h9, h10, h11, h12, h13, h14, h15, h16, h17, h18, h19⟩ := h
  refine ⟨?_, ?_, ?_, ?_, ?_, ?_, ?_, ?_, ?_, ?_, ?_, ?_, ?_, ?_, ?_, ?_, ?_, ?_, ?_⟩ <;>
    simp_all [doorwayFlag, hasTicket, inWait, inCs, counted, incRegion, activePC,
      othersBelow_zero]

theorem localOK_unlock (h : LocalOK N K tv c n ts) (hpc : ts.pc = .unlockStep) :
    LocalOK N K tv c 0 { ts with pc := .idle, iter := ts.iter + 1 } := by
  obtain ⟨h1, h2, h3, h4, h5, h6, h7, h8, h9, h10, h11, h12, h13, h14, h15, h16, h17, h18, h19⟩ := h
  have hit : ts.iter < K := h6 (by rw [hpc]; rfl)
  refine ⟨?_, ?_, ?_, ?_, ?_, ?_, ?_, ?_, ?_, ?_, ?_, ?_, ?_, ?_, ?_, ?_, ?_, ?_, ?_⟩ <;>
    simp_all [doorwayFlag, hasTicket, inWait, inCs, counted, incRegion, activePC,
      othersBelow_zero] <;> omega

end Bakery

/-! ### Preservation and establishment of the priority relation -/

namespace Bakery

variable {N : Nat}

theorem before_frame {s s' : GState N} (i j : Fin N)
    (hni : s'.number i = s.number i) (hnj : s'.number j = s.number j)
    (htj : s'.tstate j = s.tstate j) (hb : Before s i j) : Before s' i j := by
  unfold Before at hb ⊢
  rw [hni, hnj, htj]
  exact hb

theorem fin_val_ne {i t : Fin N} (h : i ≠ t) : i.val ≠ t.val :=
  fun hv => h (Fin.ext hv)

/-- A step of the observed thread `t` preserves the priority of any other
thread `i` over it: `t` cannot pick a ticket that beats a ticket `i` already
holds, and cannot slip past slot `i` in its wait loop while `i` has
priority. -/
theorem before_step_observed (K : Nat) {s : GState N} (hI : Inv N K s) (t i : Fin N)
    (hit : i ≠ t) (hb : Before s i t) : Before (stepOf K t s) i t := by
  obtain ⟨hni, hcase⟩ := hb
  have hti : t ≠ i := fun h => hit h.symm
  cases hpc : (s.tstate t).pc
  case idle =>
    rw [hpc] at hcase
    by_cases hit2 : (s.tstate t).iter < K
    · rw [step_idle_lt K t s hpc hit2]
      exact ⟨hni, by simp [setT, Function.update_same, Before]⟩
    · rw [step_idle_ge K t s hpc hit2]
      exact ⟨hni, by simp [setT, Function.update_same, Before]⟩
  case setChoosing =>
    rw [hpc] at hcase
    rw [step_setChoosing K t s hpc]
    refine ⟨hni, ?_⟩
    simp [setT, Function.update_same]
  case scan =>
    rw [hpc] at hcase
    by_cases hsi : (s.tstate t).si < N
    · rw [step_scan_lt K t s hpc hsi]
      refine ⟨hni, ?_⟩
      simp only [setT, Function.update_same]
      rw [hpc]
      rcases Nat.lt_trichotomy (s.tstate t).si i.val with h1 | h1 | h1
      · exact Or.inl (by omega)
      · refine Or.inr ?_
        have he : (⟨(s.tstate t).si, hsi⟩ : Fin N) = i := Fin.ext h1
        rw [he]
        exact le_max_right _ _
      · rcases hcase with h2 | h2
        · omega
        · exact Or.inr (le_trans h2 (le_max_left _ _))
    · rw [step_scan_ge K t s hpc hsi]
      refine ⟨hni, ?_⟩
      simp only [setT, Function.update_same]
      rcases hcase with h2 | h2
      · exact absurd (lt_of_lt_of_le i.isLt (le_of_not_lt hsi)) (by omega)
      · exact h2
  case setNumber =>
    rw [hpc] at hcase
    rw [step_setNumber K t s hpc]
    refine ⟨by simpa [setT, Function.update_noteq hit] using hni, ?_⟩
    simp only [setT, Function.update_same, Function.update_noteq hit]
    exact Or.inl (by omega)
  case clearChoosing =>
    rw [hpc] at hcase
    rw [step_clearChoosing K t s hpc]
    refine ⟨hni, ?_⟩
    simp only [setT, Function.update_same]
    exact ⟨hcase, by omega⟩
  case waitLoop =>
    rw [hpc] at hcase
    obtain ⟨hlex, hwji⟩ := hcase
    by_cases h1 : (s.tstate t).wj < N
    · by_cases h2 : (s.tstate t).wj = t.val
      · rw [step_waitLoop_self K t s hpc h2]
        refine ⟨hni, ?_⟩
        simp only [setT, Function.update_same]
        rw [hpc]
        have := fin_val_ne hit
        exact ⟨hlex, by omega⟩
      · rw [step_waitLoop_other K t s hpc h1 h2]
        refine ⟨hni, ?_⟩
        simp only [setT, Function.update_same]
        exact ⟨hlex, hwji⟩
    · rw [step_waitLoop_all K t s hpc h1]
      refine ⟨hni, ?_⟩
      simp only [setT, Function.update_same]
      exact hlex
  case waitChoosing =>
    obtain ⟨hwN, hwt⟩ := (hI.locals t).waitCh_wj (Or.inl hpc)
    by_cases hc : s.choosing ⟨(s.tstate t).wj, hwN⟩ = true
    · rw [step_waitChoosing_spin K t s hpc hwN hc]
      exact ⟨hni, hcase⟩
    · rw [step_waitChoosing_pass K t s hpc hwN (by simpa using hc)]
      rw [hpc] at hcase
      refine ⟨hni, ?_⟩
      simp only [setT, Function.update_same]
      exact hcase
  case waitNumber =>
    obtain ⟨hwN, hwt⟩ := (hI.locals t).waitCh_wj (Or.inr hpc)
    by_cases hc : waitCond (s.number ⟨(s.tstate t).wj, hwN⟩) (s.tstate t).wj
        (s.number t) t.val
    · rw [step_waitNumber_spin K t s hpc hwN hc]
      exact ⟨hni, hcase⟩
    · rw [hpc] at hcase
      obtain ⟨hlex, hwji⟩ := hcase
      have hne : (s.tstate t).wj ≠ i.val := by
        intro he
        apply hc
        have hk : (⟨(s.tstate t).wj, hwN⟩ : Fin N) = i := Fin.ext he
        rw [hk, he]
        exact (waitCond_iff_lexLt _ _ _ _).mpr ⟨by omega, hlex⟩
      rw [step_waitNumber_pass K t s hpc hwN hc]
      refine ⟨hni, ?_⟩
      simp only [setT, Function.update_same]
      exact ⟨hlex, by omega⟩
  case csEnter =>
    rw [hpc] at hcase
    rw [step_csEnter K t s hpc]
    exact ⟨hni, by simp only [setT, Function.update_same]; exact hcase⟩
  case csViol1 =>
    rw [hpc] at hcase
    have hr : ¬ (s.tstate t).reg > 0 := by
      have := (hI.locals t).reg_zero hpc
      omega
    rw [step_csViol1 K t s hpc hr]
    exact ⟨hni, by simp only [setT, Function.update_same]; exact hcase⟩
  case csCount =>
    rw [hpc] at hcase
    rw [step_csCount K t s hpc]
    exact ⟨hni, by simp only [setT, Function.update_same]; exact hcase⟩
  case csCheck2 =>
    rw [hpc] at hcase
    rw [step_csCheck2 K t s hpc]
    exact ⟨hni, by simp only [setT, Function.update_same]; exact hcase⟩
  case csViol2 =>
    rw [hpc] at hcase
    have hr : ¬ (s.tstate t).reg2 > 1 := by
      have := (hI.locals t).reg2_one hpc
      omega
    rw [step_csViol2 K t s hpc hr]
    exact ⟨hni, by simp only [setT, Function.update_same]; exact hcase⟩
  case csExit =>
    rw [step_csExit K t s hpc]
    exact ⟨hni, by simp [setT, Function.update_same, Before]⟩
  case unlockStep =>
    rw [step_unlock K t s hpc]
    refine ⟨by simpa [setT, Function.update_noteq hit] using hni, ?_⟩
    simp [setT, Function.update_same]
  case done =>
    rw [step_done K t s hpc]
    exact ⟨hni, hcase⟩

end Bakery

namespace Bakery

variable {N : Nat}

/-- When a waiter's poll of its current target finds the exit condition
satisfied (the target's slot is zero, or its pair is not smaller), the
waiter gains priority over the target. -/
theorem before_establish (K : Nat) {s : GState N} (hI : Inv N K s) (i : Fin N)
    (hpc : (s.tstate i).pc = .waitNumber) (h : (s.tstate i).wj < N)
    (hnc : ¬ waitCond (s.number ⟨(s.tstate i).wj, h⟩) (s.tstate i).wj
      (s.number i) i.val) :
    Before s i ⟨(s.tstate i).wj, h⟩ := by
  obtain ⟨hwN, hwt⟩ := (hI.locals i).waitCh_wj (Or.inr hpc)
  have hni : s.number i = (s.tstate i).maxv + 1 :=
    (hI.locals i).number_pos (by rw [hpc]; rfl)
  have hmx := (hI.locals i).maxv_nonneg
  have hnipos : 0 < s.number i := by omega
  refine ⟨hnipos, ?_⟩
  have hki : (⟨(s.tstate i).wj, h⟩ : Fin N) ≠ i := by
    intro he
    exact hwt (congrArg Fin.val he)
  by_cases hzero : s.number ⟨(s.tstate i).wj, h⟩ = 0
  · have hht : hasTicket (s.tstate ⟨(s.tstate i).wj, h⟩).pc = false := by
      by_contra hcon
      have h1 := (hI.locals ⟨(s.tstate i).wj, h⟩).number_pos (by simpa using hcon)
      have h2 := (hI.locals ⟨(s.tstate i).wj, h⟩).maxv_nonneg
      omega
    obtain ⟨hw2a, hw2b⟩ := hI.w2_target i ⟨(s.tstate i).wj, h⟩ hpc rfl
    rcases hpck : (s.tstate ⟨(s.tstate i).wj, h⟩).pc
    · trivial
    · trivial
    · exact hw2a hpck
    · exact hw2b hpck
    · rw [hpck] at hht; simp [hasTicket] at hht
    · rw [hpck] at hht; simp [hasTicket] at hht
    · rw [hpck] at hht; simp [hasTicket] at hht
    · rw [hpck] at hht; simp [hasTicket] at hht
    · rw [hpck] at hht; simp [hasTicket] at hht
    · rw [hpck] at hht; simp [hasTicket] at hht
    · rw [hpck] at hht; simp [hasTicket] at hht
    · rw [hpck] at hht; simp [hasTicket] at hht
    · rw [hpck] at hht; simp [hasTicket] at hht
    · rw [hpck] at hht; simp [hasTicket] at hht
    · rw [hpck] at hht; simp [hasTicket] at hht
    · trivial
  · have hlex : lexLt (s.number i, i.val)
        (s.number ⟨(s.tstate i).wj, h⟩, (⟨(s.tstate i).wj, h⟩ : Fin N).val) := by
      have hvne : i.val ≠ (s.tstate i).wj := fun he => hwt he.symm
      rcases lexLt_total (a := (s.number i, i.val))
          (b := (s.number ⟨(s.tstate i).wj, h⟩, (⟨(s.tstate i).wj, h⟩ : Fin N).val))
          hvne with hl | hl
      · exact hl
      · exfalso
        apply hnc
        refine (waitCond_iff_lexLt _ _ _ _).mpr ⟨hzero, ?_⟩
        exact hl
    have hht : hasTicket (s.tstate ⟨(s.tstate i).wj, h⟩).pc = true := by
      by_contra hcon
      exact hzero ((hI.locals ⟨(s.tstate i).wj, h⟩).number_zero (by simpa using hcon))
    rcases hpck : (s.tstate ⟨(s.tstate i).wj, h⟩).pc
    · rw [hpck] at hht; simp [hasTicket] at hht
    · rw [hpck] at hht; simp [hasTicket] at hht
    · rw [hpck] at hht; simp [hasTicket] at hht
    · rw [hpck] at hht; simp [hasTicket] at hht
    · exact hlex
    · refine ⟨hlex, ?_⟩
      by_contra hno
      have hb2 := hI.wait_checked ⟨(s.tstate i).wj, h⟩ i hki
        (by rw [hpck]; rfl) (by omega)
      obtain ⟨-, hcase2⟩ := hb2
      rw [hpc] at hcase2
      exact lexLt_asymm hlex hcase2.1
    · refine ⟨hlex, ?_⟩
      by_contra hno
      have hb2 := hI.wait_checked ⟨(s.tstate i).wj, h⟩ i hki
        (by rw [hpck]; rfl) (by omega)
      obtain ⟨-, hcase2⟩ := hb2
      rw [hpc] at hcase2
      exact lexLt_asymm hlex hcase2.1
    · refine ⟨hlex, ?_⟩
      by_contra hno
      have hb2 := hI.wait_checked ⟨(s.tstate i).wj, h⟩ i hki
        (by rw [hpck]; rfl) (by omega)
      obtain ⟨-, hcase2⟩ := hb2
      rw [hpc] at hcase2
      exact lexLt_asymm hlex hcase2.1
    · exact hlex
    · exact hlex
    · exact hlex
    · exact hlex
    · exact hlex
    · exact hlex
    · trivial
    · rw [hpck] at hht; simp [hasTicket] at hht

end Bakery

/-! ### Counter accounting helpers and the initial state -/

namespace Bakery

variable {N : Nat}

theorem sum_comp_update (g : TState → Int) (f : Fin N → TState) (u : Fin N) (v : TState) :
    (Finset.univ.sum fun t => g (Function.update f u v t)) =
      (Finset.univ.sum fun t => g (f t)) - g (f u) + g v := by
  have hfun : (fun t => g (Function.update f u v t)) =
      Function.update (fun t => g (f t)) u (g v) := by
    funext t
    by_cases h : t = u
    · subst h; simp [Function.update_same]
    · simp [Function.update_noteq h]
  rw [hfun, Finset.sum_update_of_mem (Finset.mem_univ u),
    Finset.sum_eq_sum_diff_singleton_add (Finset.mem_univ u) (fun t => g (f t))]
  ring

/-- The initial state satisfies the invariant. -/
theorem inv_init (K : Nat) : Inv N K (init N) := by
  refine ⟨?_, ?_, ?_, ?_, ?_, ?_, ?_⟩
  · intro t
    refine ⟨?_, ?_, ?_, ?_, ?_, ?_, ?_, ?_, ?_, ?_, ?_, ?_, ?_, ?_, ?_, ?_, ?_, ?_, ?_⟩ <;>
      simp [init, doorwayFlag, hasTicket, inWait, inCs, counted, incRegion, activePC]
  · simp [init, insideOf, occupied]
  · simp [init, contribOf, counted]
  · rfl
  · intro i j hij hw
    simp [init, inWait] at hw
  · intro i j hij hc
    simp [init, inCs] at hc
  · intro i k hpc hk
    simp [init] at hpc

end Bakery

namespace Bakery

variable {N : Nat}

theorem inside_acct {s s' : GState N} {u : Fin N}
    (hts_ne : ∀ t : Fin N, t ≠ u → s'.tstate t = s.tstate t)
    (hIe : s.inside = Finset.univ.sum fun t : Fin N => insideOf (s.tstate t).pc)
    (hin : s'.inside =
      s.inside - insideOf (s.tstate u).pc + insideOf (s'.tstate u).pc) :
    s'.inside = Finset.univ.sum fun t : Fin N => insideOf (s'.tstate t).pc := by
  have h1 := Finset.sum_eq_sum_diff_singleton_add (Finset.mem_univ u)
    (fun t : Fin N => insideOf (s'.tstate t).pc)
  have h2 := Finset.sum_eq_sum_diff_singleton_add (Finset.mem_univ u)
    (fun t : Fin N => insideOf (s.tstate t).pc)
  have h3 : Finset.sum (Finset.univ \ {u}) (fun t : Fin N => insideOf (s'.tstate t).pc) =
      Finset.sum (Finset.univ \ {u}) (fun t : Fin N => insideOf (s.tstate t).pc) := by
    refine Finset.sum_congr rfl fun t ht => ?_
    have hne : t ≠ u := by
      rcases Finset.mem_sdiff.mp ht with ⟨-, hne⟩
      simpa using hne
    rw [hts_ne t hne]
  omega

theorem counter_acct {s s' : GState N} {u : Fin N}
    (hts_ne : ∀ t : Fin N, t ≠ u → s'.tstate t = s.tstate t)
    (hIe : s.counter = Finset.univ.sum fun t : Fin N => contribOf (s.tstate t))
    (hin : s'.counter =
      s.counter - contribOf (s.tstate u) + contribOf (s'.tstate u)) :
    s'.counter = Finset.univ.sum fun t : Fin N => contribOf (s'.tstate t) := by
  have h1 := Finset.sum_eq_sum_diff_singleton_add (Finset.mem_univ u)
    (fun t : Fin N => contribOf (s'.tstate t))
  have h2 := Finset.sum_eq_sum_diff_singleton_add (Finset.mem_univ u)
    (fun t : Fin N => contribOf (s.tstate t))
  have h3 : Finset.sum (Finset.univ \ {u}) (fun t : Fin N => contribOf (s'.tstate t)) =
      Finset.sum (Finset.univ \ {u}) (fun t : Fin N => contribOf (s.tstate t)) := by
    refine Finset.sum_congr rfl fun t ht => ?_
    have hne : t ≠ u := by
      rcases Finset.mem_sdiff.mp ht with ⟨-, hne⟩
      simpa using hne
    rw [hts_ne t hne]
  omega

end Bakery

namespace Bakery

variable {N : Nat}

/-- Generic preservation skeleton for one step of thread `u`: the frame parts
(other threads' local invariants, priorities among or over unchanged threads)
are handled once; the per-instruction obligations are the stepping thread's
new local invariant, the two counter accountings, the violation flag, and
the priority facts in which `u` is the subject or the doorway target. -/
theorem inv_step_of (K : Nat) {s : GState N} (hI : Inv N K s) (u : Fin N)
    (hnew : LocalOK N K u.val ((stepOf K u s).choosing u)
      ((stepOf K u s).number u) ((stepOf K u s).tstate u))
    (hins : (stepOf K u s).inside =
      s.inside - insideOf (s.tstate u).pc + insideOf ((stepOf K u s).tstate u).pc)
    (hcnt : (stepOf K u s).counter =
      s.counter - contribOf (s.tstate u) + contribOf ((stepOf K u s).tstate u))
    (hvio : (stepOf K u s).violation = false)
    (hwl : ∀ j : Fin N, u ≠ j → inWait ((stepOf K u s).tstate u).pc = true →
      j.val < ((stepOf K u s).tstate u).wj → Before (stepOf K u s) u j)
    (hcs : ∀ j : Fin N, u ≠ j → inCs ((stepOf K u s).tstate u).pc = true →
      Before (stepOf K u s) u j)
    (hw2i : ∀ k : Fin N, ((stepOf K u s).tstate u).pc = .waitNumber →
      k.val = ((stepOf K u s).tstate u).wj →
      (((stepOf K u s).tstate k).pc = .scan →
        ((stepOf K u s).tstate k).si ≤ u.val ∨
          (stepOf K u s).number u ≤ ((stepOf K u s).tstate k).maxv) ∧
      (((stepOf K u s).tstate k).pc = .setNumber →
        (stepOf K u s).number u ≤ ((stepOf K u s).tstate k).maxv))
    (hw2k : ∀ i : Fin N, i ≠ u → (s.tstate i).pc = .waitNumber →
      u.val = (s.tstate i).wj →
      (((stepOf K u s).tstate u).pc = .scan →
        ((stepOf K u s).tstate u).si ≤ i.val ∨
          s.number i ≤ ((stepOf K u s).tstate u).maxv) ∧
      (((stepOf K u s).tstate u).pc = .setNumber →
        s.number i ≤ ((stepOf K u s).tstate u).maxv)) :
    Inv N K (stepOf K u s) := by
  have htsNe : ∀ t : Fin N, t ≠ u → (stepOf K u s).tstate t = s.tstate t :=
    fun t h => stepOf_tstate_ne K u t h s
  have hnmNe : ∀ t : Fin N, t ≠ u → (stepOf K u s).number t = s.number t :=
    fun t h => stepOf_number_ne K u t h s
  have hchNe : ∀ t : Fin N, t ≠ u → (stepOf K u s).choosing t = s.choosing t :=
    fun t h => stepOf_choosing_ne K u t h s
  have hbFr : ∀ i j : Fin N, i ≠ u → j ≠ u → Before s i j →
      Before (stepOf K u s) i j :=
    fun i j hi hj => before_frame i j (hnmNe i hi) (hnmNe j hj) (htsNe j hj)
  have hbObs : ∀ i : Fin N, i ≠ u → Before s i u → Before (stepOf K u s) i u :=
    fun i h hb => before_step_observed K hI u i h hb
  refine ⟨?_, ?_, ?_, ?_, ?_, ?_, ?_⟩
  · intro t
    by_cases h : t = u
    · subst h; exact hnew
    · rw [htsNe t h, hnmNe t h, hchNe t h]
      exact hI.locals t
  · exact inside_acct htsNe hI.inside_eq hins
  · exact counter_acct htsNe hI.counter_eq hcnt
  · exact hvio
  · intro i j hij hw hlt
    by_cases hiu : i = u
    · subst hiu
      exact hwl j hij hw hlt
    · rw [htsNe i hiu] at hw hlt
      by_cases hju : j = u
      · subst hju
        exact hbObs i hiu (hI.wait_checked i j hij hw hlt)
      · exact hbFr i j hiu hju (hI.wait_checked i j hij hw hlt)
  · intro i j hij hc
    by_cases hiu : i = u
    · subst hiu
      exact hcs j hij hc
    · rw [htsNe i hiu] at hc
      by_cases hju : j = u
      · subst hju
        exact hbObs i hiu (hI.cs_before i j hij hc)
      · exact hbFr i j hiu hju (hI.cs_before i j hij hc)
  · intro i k hpci hk
    by_cases hiu : i = u
    · subst hiu
      exact hw2i k hpci hk
    · rw [htsNe i hiu] at hpci hk
      by_cases hku : k = u
      · subst hku
        rw [hnmNe i hiu]
        exact hw2k i hiu hpci hk
      · rw [htsNe k hku, hnmNe i hiu]
        exact hI.w2_target i k hpci hk
end Bakery

namespace Bakery

variable {N : Nat}

theorem number_nonneg {K : Nat} {s : GState N} (hI : Inv N K s) (m : Fin N) :
    0 ≤ s.number m := by
  by_cases h : hasTicket (s.tstate m).pc = true
  · have h1 := (hI.locals m).number_pos h
    have h2 := (hI.locals m).maxv_nonneg
    omega
  · rw [(hI.locals m).number_zero (by simpa using h)]

theorem occupied_imp_inCs {pc : PC} (h : occupied pc = true) : inCs pc = true := by
  cases pc <;> simp_all [occupied, inCs]

theorem before_lex_of_cs {s : GState N} {i j : Fin N} (hb : Before s i j)
    (hc : inCs (s.tstate j).pc = true) :
    lexLt (s.number i, i.val) (s.number j, j.val) := by
  obtain ⟨-, hcase⟩ := hb
  rcases hpcj : (s.tstate j).pc <;> rw [hpcj] at hcase hc <;>
    simp [inCs] at hc <;> exact hcase

/-- Mutual exclusion: no two distinct threads are simultaneously between the
occupancy increment of the critical section's entry and its exit store. -/
theorem cs_excl {K : Nat} {s : GState N} (hI : Inv N K s) (i j : Fin N) (hij : i ≠ j)
    (hci : inCs (s.tstate i).pc = true) (hcj : inCs (s.tstate j).pc = true) : False :=
  lexLt_asymm (before_lex_of_cs (hI.cs_before i j hij hci) hcj)
    (before_lex_of_cs (hI.cs_before j i (fun h => hij h.symm) hcj) hci)

theorem inside_zero_at_enter {K : Nat} {s : GState N} (hI : Inv N K s) (u : Fin N)
    (hpc : (s.tstate u).pc = .csEnter) : s.inside = 0 := by
  rw [hI.inside_eq]
  refine Finset.sum_eq_zero fun j _ => ?_
  by_cases hju : j = u
  · subst hju
    simp [insideOf, occupied, hpc]
  · suffices hocc : occupied (s.tstate j).pc = false by simp [insideOf, hocc]
    by_contra hcon
    have hcs' : inCs (s.tstate j).pc = true :=
      occupied_imp_inCs (by simpa using hcon)
    exact cs_excl hI u j (fun h => hju h.symm) (by rw [hpc]; rfl) hcs'

theorem inside_one_at_check {K : Nat} {s : GState N} (hI : Inv N K s) (u : Fin N)
    (hpc : (s.tstate u).pc = .csCheck2) : s.inside = 1 := by
  rw [hI.inside_eq]
  rw [Finset.sum_eq_single u]
  · simp [insideOf, occupied, hpc]
  · intro j _ hju
    suffices hocc : occupied (s.tstate j).pc = false by simp [insideOf, hocc]
    by_contra hcon
    have hcs' : inCs (s.tstate j).pc = true :=
      occupied_imp_inCs (by simpa using hcon)
    exact cs_excl hI u j (fun h => hju h.symm) (by rw [hpc]; rfl) hcs'
  · intro h
    exact absurd (Finset.mem_univ u) h

theorem before_lift_subject (K : Nat) (u j : Fin N) (hj : j ≠ u) (s : GState N)
    (hnum : (stepOf K u s).number u = s.number u)
    (hb : Before s u j) : Before (stepOf K u s) u j :=
  before_frame u j hnum (stepOf_number_ne K u j hj s) (stepOf_tstate_ne K u j hj s) hb

end Bakery

namespace Bakery

variable {N : Nat}

/-- Every step preserves the invariant. -/
theorem inv_step (K : Nat) {s : GState N} (hI : Inv N K s) (u : Fin N) :
    Inv N K (stepOf K u s) := by
  cases hpc : (s.tstate u).pc
  case idle =>
    by_cases hit : (s.tstate u).iter < K
    · have hstep := step_idle_lt K u s hpc hit
      refine inv_step_of K hI u ?_ ?_ ?_ ?_ ?_ ?_ ?_ ?_
      · rw [hstep]
        simp only [setT, Function.update_same]
        exact localOK_idle_lt (hI.locals u) hpc hit
      · rw [hstep]
        simp only [setT, Function.update_same]
        simp [insideOf, occupied, hpc]
      · rw [hstep]
        simp only [setT, Function.update_same]
        simp [contribOf, counted, hpc]
      · rw [hstep]
        exact hI.violation_false
      · intro j hj hw hlt
        rw [hstep] at hw
        simp [setT, Function.update_same, inWait] at hw
      · intro j hj hc
        rw [hstep] at hc
        simp [setT, Function.update_same, inCs] at hc
      · intro k hpcn hk
        rw [hstep] at hpcn
        simp [setT, Function.update_same] at hpcn
      · intro i hiu hpci hk
        constructor
        · intro hsc
          rw [hstep] at hsc
          simp [setT, Function.update_same] at hsc
        · intro hsn
          rw [hstep] at hsn
          simp [setT, Function.update_same] at hsn
    · have hstep := step_idle_ge K u s hpc hit
      refine inv_step_of K hI u ?_ ?_ ?_ ?_ ?_ ?_ ?_ ?_
      · rw [hstep]
        simp only [setT, Function.update_same]
        exact localOK_idle_ge (hI.locals u) hpc hit
      · rw [hstep]
        simp only [setT, Function.update_same]
        simp [insideOf, occupied, hpc]
      · rw [hstep]
        simp only [setT, Function.update_same]
        simp [contribOf, counted, hpc]
      · rw [hstep]
        exact hI.violation_false
      · intro j hj hw hlt
        rw [hstep] at hw
        simp [setT, Function.update_same, inWait] at hw
      · intro j hj hc
        rw [hstep] at hc
        simp [setT, Function.update_same, inCs] at hc
      · intro k hpcn hk
        rw [hstep] at hpcn
        simp [setT, Function.update_same] at hpcn
      · intro i hiu hpci hk
        constructor
        · intro hsc
          rw [hstep] at hsc
          simp [setT, Function.update_same] at hsc
        · intro hsn
          rw [hstep] at hsn
          simp [setT, Function.update_same] at hsn
  case setChoosing =>
    have hstep := step_setChoosing K u s hpc
    refine inv_step_of K hI u ?_ ?_ ?_ ?_ ?_ ?_ ?_ ?_
    · rw [hstep]
      simp only [setT, Function.update_same]
      exact localOK_setChoosing (hI.locals u) hpc
    · rw [hstep]
      simp only [setT, Function.update_same]
      simp [insideOf, occupied, hpc]
    · rw [hstep]
      simp only [setT, Function.update_same]
      simp [contribOf, counted, hpc]
    · rw [hstep]
      exact hI.violation_false
    · intro j hj hw hlt
      rw [hstep] at hw
      simp [setT, Function.update_same, inWait] at hw
    · intro j hj hc
      rw [hstep] at hc
      simp [setT, Function.update_same, inCs] at hc
    · intro k hpcn hk
      rw [hstep] at hpcn
      simp [setT, Function.update_same] at hpcn
    · intro i hiu hpci hk
      constructor
      · intro hsc
        rw [hstep]
        simp only [setT, Function.update_same]
        exact Or.inl (Nat.zero_le _)
      · intro hsn
        rw [hstep] at hsn
        simp [setT, Function.update_same] at hsn
  case scan =>
    by_cases hsi : (s.tstate u).si < N
    · have hstep := step_scan_lt K u s hpc hsi
      refine inv_step_of K hI u ?_ ?_ ?_ ?_ ?_ ?_ ?_ ?_
      · rw [hstep]
        simp only [setT, Function.update_same]
        exact localOK_scan_lt (hI.locals u) hpc hsi _ (number_nonneg hI _)
      · rw [hstep]
        simp only [setT, Function.update_same]
        simp [insideOf, occupied, hpc]
      · rw [hstep]
        simp only [setT, Function.update_same]
        simp [contribOf, counted, hpc]
      · rw [hstep]
        exact hI.violation_false
      · intro j hj hw hlt
        rw [hstep] at hw
        simp [setT, Function.update_same, inWait, hpc] at hw
      · intro j hj hc
        rw [hstep] at hc
        simp [setT, Function.update_same, inCs, hpc] at hc
      · intro k hpcn hk
        rw [hstep] at hpcn
        simp [setT, Function.update_same, hpc] at hpcn
      · intro i hiu hpci hk
        obtain ⟨hd, -⟩ := hI.w2_target i u hpci hk
        constructor
        · intro hsc
          rw [hstep]
          simp only [setT, Function.update_same]
          rcases Nat.lt_trichotomy (s.tstate u).si i.val with h1 | h1 | h1
          · exact Or.inl (by omega)
          · refine Or.inr ?_
            have he : (⟨(s.tstate u).si, hsi⟩ : Fin N) = i := Fin.ext h1
            rw [he]
            exact le_max_right _ _
          · rcases hd hpc with h2 | h2
            · omega
            · exact Or.inr (le_trans h2 (le_max_left _ _))
        · intro hsn
          rw [hstep] at hsn
          simp [setT, Function.update_same, hpc] at hsn
    · have hstep := step_scan_ge K u s hpc hsi
      refine inv_step_of K hI u ?_ ?_ ?_ ?_ ?_ ?_ ?_ ?_
      · rw [hstep]
        simp only [setT, Function.update_same]
        exact localOK_scan_ge (hI.locals u) hpc hsi
      · rw [hstep]
        simp only [setT, Function.update_same]
        simp [insideOf, occupied, hpc]
      · rw [hstep]
        simp only [setT, Function.update_same]
        simp [contribOf, counted, hpc]
      · rw [hstep]
        exact hI.violation_false
      · intro j hj hw hlt
        rw [hstep] at hw
        simp [setT, Function.update_same, inWait] at hw
      · intro j hj hc
        rw [hstep] at hc
        simp [setT, Function.update_same, inCs] at hc
      · intro k hpcn hk
        rw [hstep] at hpcn
        simp [setT, Function.update_same] at hpcn
      · intro i hiu hpci hk
        obtain ⟨hd, -⟩ := hI.w2_target i u hpci hk
        constructor
        · intro hsc
          rw [hstep] at hsc
          simp [setT, Function.update_same] at hsc
        · intro hsn
          rw [hstep]
          simp only [setT, Function.update_same]
          rcases hd hpc with h2 | h2
          · exact absurd (lt_of_lt_of_le i.isLt (le_of_not_lt hsi)) (by omega)
          · exact h2
  case setNumber =>
    have hstep := step_setNumber K u s hpc
    refine inv_step_of K hI u ?_ ?_ ?_ ?_ ?_ ?_ ?_ ?_
    · rw [hstep]
      simp only [setT, Function.update_same]
      exact localOK_setNumber (hI.locals u) hpc
    · rw [hstep]
      simp only [setT, Function.update_same]
      simp [insideOf, occupied, hpc]
    · rw [hstep]
      simp only [setT, Function.update_same]
      simp [contribOf, counted, hpc]
    · rw [hstep]
      exact hI.violation_false
    · intro j hj hw hlt
      rw [hstep] at hw
      simp [setT, Function.update_same, inWait] at hw
    · intro j hj hc
      rw [hstep] at hc
      simp [setT, Function.update_same, inCs] at hc
    · intro k hpcn hk
      rw [hstep] at hpcn
      simp [setT, Function.update_same] at hpcn
    · intro i hiu hpci hk
      constructor
      · intro hsc
        rw [hstep] at hsc
        simp [setT, Function.update_same] at hsc
      · intro hsn
        rw [hstep] at hsn
        simp [setT, Function.update_same] at hsn
  case clearChoosing =>
    have hstep := step_clearChoosing K u s hpc
    refine inv_step_of K hI u ?_ ?_ ?_ ?_ ?_ ?_ ?_ ?_
    · rw [hstep]
      simp only [setT, Function.update_same]
      exact localOK_clearChoosing (hI.locals u) hpc
    · rw [hstep]
      simp only [setT, Function.update_same]
      simp [insideOf, occupied, hpc]
    · rw [hstep]
      simp only [setT, Function.update_same]
      simp [contribOf, counted, hpc]
    · rw [hstep]
      exact hI.violation_false
    · intro j hj hw hlt
      rw [hstep] at hlt
      simp [setT, Function.update_same] at hlt
    · intro j hj hc
      rw [hstep] at hc
      simp [setT, Function.update_same, inCs] at hc
    · intro k hpcn hk
      rw [hstep] at hpcn
      simp [setT, Function.update_same] at hpcn
    · intro i hiu hpci hk
      constructor
      · intro hsc
        rw [hstep] at hsc
        simp [setT, Function.update_same] at hsc
      · intro hsn
        rw [hstep] at hsn
        simp [setT, Function.update_same] at hsn
  case waitLoop =>
    by_cases h1 : (s.tstate u).wj < N
    · by_cases h2 : (s.tstate u).wj = u.val
      · have hstep := step_waitLoop_self K u s hpc h2
        refine inv_step_of K hI u ?_ ?_ ?_ ?_ ?_ ?_ ?_ ?_
        · rw [hstep]
          simp only [setT, Function.update_same]
          exact localOK_waitLoop_self (hI.locals u) hpc u.isLt h2
        · rw [hstep]
          simp only [setT, Function.update_same]
          simp [insideOf, occupied, hpc]
        · rw [hstep]
          simp only [setT, Function.update_same]
          simp [contribOf, counted, hpc]
        · rw [hstep]
          exact hI.violation_false
        · intro j hj hw hlt
          rw [hstep] at hlt
          simp only [setT, Function.update_same] at hlt
          have hju : j ≠ u := fun h => hj h.symm
          have hne : j.val ≠ (s.tstate u).wj := by
            have := fin_val_ne hju
            omega
          refine before_lift_subject K u j hju s (by rw [hstep]; rfl) ?_
          exact hI.wait_checked u j hj (by rw [hpc]; rfl) (by omega)
        · intro j hj hc
          rw [hstep] at hc
          simp [setT, Function.update_same, inCs, hpc] at hc
        · intro k hpcn hk
          rw [hstep] at hpcn
          simp [setT, Function.update_same, hpc] at hpcn
        · intro i hiu hpci hk
          constructor
          · intro hsc
            rw [hstep] at hsc
            simp [setT, Function.update_same, hpc] at hsc
          · intro hsn
            rw [hstep] at hsn
            simp [setT, Function.update_same, hpc] at hsn
      · have hstep := step_waitLoop_other K u s hpc h1 h2
        refine inv_step_of K hI u ?_ ?_ ?_ ?_ ?_ ?_ ?_ ?_
        · rw [hstep]
          simp only [setT, Function.update_same]
          exact localOK_waitLoop_other (hI.locals u) hpc h1 h2
        · rw [hstep]
          simp only [setT, Function.update_same]
          simp [insideOf, occupied, hpc]
        · rw [hstep]
          simp only [setT, Function.update_same]
          simp [contribOf, counted, hpc]
        · rw [hstep]
          exact hI.violation_false
        · intro j hj hw hlt
          rw [hstep] at hlt
          simp only [setT, Function.update_same] at hlt
          have hju : j ≠ u := fun h => hj h.symm
          refine before_lift_subject K u j hju s (by rw [hstep]; rfl) ?_
          exact hI.wait_checked u j hj (by rw [hpc]; rfl) hlt
        · intro j hj hc
          rw [hstep] at hc
          simp [setT, Function.update_same, inCs] at hc
        · intro k hpcn hk
          rw [hstep] at hpcn
          simp [setT, Function.update_same] at hpcn
        · intro i hiu hpci hk
          constructor
          · intro hsc
            rw [hstep] at hsc
            simp [setT, Function.update_same] at hsc
          · intro hsn
            rw [hstep] at hsn
            simp [setT, Function.update_same] at hsn
    · have hstep := step_waitLoop_all K u s hpc h1
      refine inv_step_of K hI u ?_ ?_ ?_ ?_ ?_ ?_ ?_ ?_
      · rw [hstep]
        simp only [setT, Function.update_same]
        exact localOK_waitLoop_all (hI.locals u) hpc h1
      · rw [hstep]
        simp only [setT, Function.update_same]
        simp [insideOf, occupied, hpc]
      · rw [hstep]
        simp only [setT, Function.update_same]
        simp [contribOf, counted, hpc]
      · rw [hstep]
        exact hI.violation_false
      · intro j hj hw hlt
        rw [hstep] at hw
        simp [setT, Function.update_same, inWait] at hw
      · intro j hj hc
        have hju : j ≠ u := fun h => hj h.symm
        refine before_lift_subject K u j hju s (by rw [hstep]; rfl) ?_
        refine hI.wait_checked u j hj (by rw [hpc]; rfl) ?_
        have := j.isLt
        omega
      · intro k hpcn hk
        rw [hstep] at hpcn
        simp [setT, Function.update_same] at hpcn
      · intro i hiu hpci hk
        constructor
        · intro hsc
          rw [hstep] at hsc
          simp [setT, Function.update_same] at hsc
        · intro hsn
          rw [hstep] at hsn
          simp [setT, Function.update_same] at hsn
  case waitChoosing =>
    obtain ⟨hwN, hwt⟩ := (hI.locals u).waitCh_wj (Or.inl hpc)
    by_cases hcg : s.choosing ⟨(s.tstate u).wj, hwN⟩ = true
    · rw [step_waitChoosing_spin K u s hpc hwN hcg]
      exact hI
    · have hstep := step_waitChoosing_pass K u s hpc hwN (by simpa using hcg)
      refine inv_step_of K hI u ?_ ?_ ?_ ?_ ?_ ?_ ?_ ?_
      · rw [hstep]
        simp only [setT, Function.update_same]
        exact localOK_waitChoosing_pass (hI.locals u) hpc
      · rw [hstep]
        simp only [setT, Function.update_same]
        simp [insideOf, occupied, hpc]
      · rw [hstep]
        simp only [setT, Function.update_same]
        simp [contribOf, counted, hpc]
      · rw [hstep]
        exact hI.violation_false
      · intro j hj hw hlt
        rw [hstep] at hlt
        simp only [setT, Function.update_same] at hlt
        have hju : j ≠ u := fun h => hj h.symm
        refine before_lift_subject K u j hju s (by rw [hstep]; rfl) ?_
        exact hI.wait_checked u j hj (by rw [hpc]; rfl) hlt
      · intro j hj hc
        rw [hstep] at hc
        simp [setT, Function.update_same, inCs] at hc
      · intro k hpcn hk
        rw [hstep] at hk
        simp only [setT, Function.update_same] at hk
        have hku : k ≠ u := by
          intro he
          rw [he] at hk
          exact hwt hk.symm
        have hkfin : k = ⟨(s.tstate u).wj, hwN⟩ := Fin.ext hk
        have hcf : s.choosing k = false := by
          rw [hkfin]
          simpa using hcg
        have hdw : doorwayFlag (s.tstate k).pc = false := by
          rw [← (hI.locals k).choosing_eq]
          exact hcf
        constructor
        · intro hsc
          rw [stepOf_tstate_ne K u k hku s] at hsc
          rw [hsc] at hdw
          simp [doorwayFlag] at hdw
        · intro hsn
          rw [stepOf_tstate_ne K u k hku s] at hsn
          rw [hsn] at hdw
          simp [doorwayFlag] at hdw
      · intro i hiu hpci hk
        constructor
        · intro hsc
          rw [hstep] at hsc
          simp [setT, Function.update_same] at hsc
        · intro hsn
          rw [hstep] at hsn
          simp [setT, Function.update_same] at hsn
  case waitNumber =>
    obtain ⟨hwN, hwt⟩ := (hI.locals u).waitCh_wj (Or.inr hpc)
    by_cases hcg : waitCond (s.number ⟨(s.tstate u).wj, hwN⟩) (s.tstate u).wj
        (s.number u) u.val
    · rw [step_waitNumber_spin K u s hpc hwN hcg]
      exact hI
    · have hstep := step_waitNumber_pass K u s hpc hwN hcg
      refine inv_step_of K hI u ?_ ?_ ?_ ?_ ?_ ?_ ?_ ?_
      · rw [hstep]
        simp only [setT, Function.update_same]
        exact localOK_waitNumber_pass (hI.locals u) hpc _ hcg
      · rw [hstep]
        simp only [setT, Function.update_same]
        simp [insideOf, occupied, hpc]
      · rw [hstep]
        simp only [setT, Function.update_same]
        simp [contribOf, counted, hpc]
      · rw [hstep]
        exact hI.violation_false
      · intro j hj hw hlt
        rw [hstep] at hlt
        simp only [setT, Function.update_same] at hlt
        have hju : j ≠ u := fun h => hj h.symm
        by_cases hje : j.val = (s.tstate u).wj
        · have hb := before_establish K hI u hpc hwN hcg
          have hjfin : j = ⟨(s.tstate u).wj, hwN⟩ := Fin.ext hje
          rw [← hjfin] at hb
          exact before_lift_subject K u j hju s (by rw [hstep]; rfl) hb
        · exact before_lift_subject K u j hju s (by rw [hstep]; rfl)
            (hI.wait_checked u j hj (by rw [hpc]; rfl) (by omega))
      · intro j hj hc
        rw [hstep] at hc
        simp [setT, Function.update_same, inCs] at hc
      · intro k hpcn hk
        rw [hstep] at hpcn
        simp [setT, Function.update_same] at hpcn
      · intro i hiu hpci hk
        constructor
        · intro hsc
          rw [hstep] at hsc
          simp [setT, Function.update_same] at hsc
        · intro hsn
          rw [hstep] at hsn
          simp [setT, Function.update_same] at hsn
  case csEnter =>
    have hstep := step_csEnter K u s hpc
    have hzero : s.inside = 0 := inside_zero_at_enter hI u hpc
    refine inv_step_of K hI u ?_ ?_ ?_ ?_ ?_ ?_ ?_ ?_
    · rw [hstep]
      simp only [setT, Function.update_same]
      exact localOK_csEnter (hI.locals u) hpc s.inside hzero
    · rw [hstep]
      simp only [setT, Function.update_same]
      simp [insideOf, occupied, hpc]
    · rw [hstep]
      simp only [setT, Function.update_same]
      simp [contribOf, counted, hpc]
    · rw [hstep]
      exact hI.violation_false
    · intro j hj hw hlt
      rw [hstep] at hw
      simp [setT, Function.update_same, inWait] at hw
    · intro j hj hc
      have hju : j ≠ u := fun h => hj h.symm
      refine before_lift_subject K u j hju s (by rw [hstep]; rfl) ?_
      exact hI.cs_before u j hj (by rw [hpc]; rfl)
    · intro k hpcn hk
      rw [hstep] at hpcn
      simp [setT, Function.update_same] at hpcn
    · intro i hiu hpci hk
      constructor
      · intro hsc
        rw [hstep] at hsc
        simp [setT, Function.update_same] at hsc
      · intro hsn
        rw [hstep] at hsn
        simp [setT, Function.update_same] at hsn
  case csViol1 =>
    have hreg : ¬ (s.tstate u).reg > 0 := by
      have := (hI.locals u).reg_zero hpc
      omega
    have hstep := step_csViol1 K u s hpc hreg
    refine inv_step_of K hI u ?_ ?_ ?_ ?_ ?_ ?_ ?_ ?_
    · rw [hstep]
      simp only [setT, Function.update_same]
      exact localOK_csViol1 (hI.locals u) hpc
    · rw [hstep]
      simp only [setT, Function.update_same]
      simp [insideOf, occupied, hpc]
    · rw [hstep]
      simp only [setT, Function.update_same]
      simp [contribOf, counted, hpc]
    · rw [hstep]
      exact hI.violation_false
    · intro j hj hw hlt
      rw [hstep] at hw
      simp [setT, Function.update_same, inWait] at hw
    · intro j hj hc
      have hju : j ≠ u := fun h => hj h.symm
      refine before_lift_subject K u j hju s (by rw [hstep]; rfl) ?_
      exact hI.cs_before u j hj (by rw [hpc]; rfl)
    · intro k hpcn hk
      rw [hstep] at hpcn
      simp [setT, Function.update_same] at hpcn
    · intro i hiu hpci hk
      constructor
      · intro hsc
        rw [hstep] at hsc
        simp [setT, Function.update_same] at hsc
      · intro hsn
        rw [hstep] at hsn
        simp [setT, Function.update_same] at hsn
  case csCount =>
    have hstep := step_csCount K u s hpc
    refine inv_step_of K hI u ?_ ?_ ?_ ?_ ?_ ?_ ?_ ?_
    · rw [hstep]
      simp only [setT, Function.update_same]
      exact localOK_csCount (hI.locals u) hpc
    · rw [hstep]
      simp only [setT, Function.update_same]
      simp [insideOf, occupied, hpc]
    · rw [hstep]
      simp only [setT, Function.update_same]
      simp [contribOf, counted, hpc]
      omega
    · rw [hstep]
      exact hI.violation_false
    · intro j hj hw hlt
      rw [hstep] at hw
      simp [setT, Function.update_same, inWait] at hw
    · intro j hj hc
      have hju : j ≠ u := fun h => hj h.symm
      refine before_lift_subject K u j hju s (by rw [hstep]; rfl) ?_
      exact hI.cs_before u j hj (by rw [hpc]; rfl)
    · intro k hpcn hk
      rw [hstep] at hpcn
      simp [setT, Function.update_same] at hpcn
    · intro i hiu hpci hk
      constructor
      · intro hsc
        rw [hstep] at hsc
        simp [setT, Function.update_same] at hsc
      · intro hsn
        rw [hstep] at hsn
        simp [setT, Function.update_same] at hsn
  case csCheck2 =>
    have hstep := step_csCheck2 K u s hpc
    have hone : s.inside = 1 := inside_one_at_check hI u hpc
    refine inv_step_of K hI u ?_ ?_ ?_ ?_ ?_ ?_ ?_ ?_
    · rw [hstep]
      simp only [setT, Function.update_same]
      exact localOK_csCheck2 (hI.locals u) hpc s.inside hone
    · rw [hstep]
      simp only [setT, Function.update_same]
      simp [insideOf, occupied, hpc]
    · rw [hstep]
      simp only [setT, Function.update_same]
      simp [contribOf, counted, hpc]
    · rw [hstep]
      exact hI.violation_false
    · intro j hj hw hlt
      rw [hstep] at hw
      simp [setT, Function.update_same, inWait] at hw
    · intro j hj hc
      have hju : j ≠ u := fun h => hj h.symm
      refine before_lift_subject K u j hju s (by rw [hstep]; rfl) ?_
      exact hI.cs_before u j hj (by rw [hpc]; rfl)
    · intro k hpcn hk
      rw [hstep] at hpcn
      simp [setT, Function.update_same] at hpcn
    · intro i hiu hpci hk
      constructor
      · intro hsc
        rw [hstep] at hsc
        simp [setT, Function.update_same] at hsc
      · intro hsn
        rw [hstep] at hsn
        simp [setT, Function.update_same] at hsn
  case csViol2 =>
    have hreg : ¬ (s.tstate u).reg2 > 1 := by
      have := (hI.locals u).reg2_one hpc
      omega
    have hstep := step_csViol2 K u s hpc hreg
    refine inv_step_of K hI u ?_ ?_ ?_ ?_ ?_ ?_ ?_ ?_
    · rw [hstep]
      simp only [setT, Function.update_same]
      exact localOK_csViol2 (hI.locals u) hpc
    · rw [hstep]
      simp only [setT, Function.update_same]
      simp [insideOf, occupied, hpc]
    · rw [hstep]
      simp only [setT, Function.update_same]
      simp [contribOf, counted, hpc]
    · rw [hstep]
      exact hI.violation_false
    · intro j hj hw hlt
      rw [hstep] at hw
      simp [setT, Function.update_same, inWait] at hw
    · intro j hj hc
      have hju : j ≠ u := fun h => hj h.symm
      refine before_lift_subject K u j hju s (by rw [hstep]; rfl) ?_
      exact hI.cs_before u j hj (by rw [hpc]; rfl)
    · intro k hpcn hk
      rw [hstep] at hpcn
      simp [setT, Function.update_same] at hpcn
    · intro i hiu hpci hk
      constructor
      · intro hsc
        rw [hstep] at hsc
        simp [setT, Function.update_same] at hsc
      · intro hsn
        rw [hstep] at hsn
        simp [setT, Function.update_same] at hsn
  case csExit =>
    have hstep := step_csExit K u s hpc
    refine inv_step_of K hI u ?_ ?_ ?_ ?_ ?_ ?_ ?_ ?_
    · rw [hstep]
      simp only [setT, Function.update_same]
      exact localOK_csExit (hI.locals u) hpc
    · rw [hstep]
      simp only [setT, Function.update_same]
      simp [insideOf, occupied, hpc]
    · rw [hstep]
      simp only [setT, Function.update_same]
      simp [contribOf, counted, hpc]
    · rw [hstep]
      exact hI.violation_false
    · intro j hj hw hlt
      rw [hstep] at hw
      simp [setT, Function.update_same, inWait] at hw
    · intro j hj hc
      rw [hstep] at hc
      simp [setT, Function.update_same, inCs] at hc
    · intro k hpcn hk
      rw [hstep] at hpcn
      simp [setT, Function.update_same] at hpcn
    · intro i hiu hpci hk
      constructor
      · intro hsc
        rw [hstep] at hsc
        simp [setT, Function.update_same] at hsc
      · intro hsn
        rw [hstep] at hsn
        simp [setT, Function.update_same] at hsn
  case unlockStep =>
    have hstep := step_unlock K u s hpc
    refine inv_step_of K hI u ?_ ?_ ?_ ?_ ?_ ?_ ?_ ?_
    · rw [hstep]
      simp only [setT, Function.update_same]
      exact localOK_unlock (hI.locals u) hpc
    · rw [hstep]
      simp only [setT, Function.update_same]
      simp [insideOf, occupied, hpc]
    · rw [hstep]
      simp only [setT, Function.update_same]
      simp [contribOf, counted, hpc]
    · rw [hstep]
      exact hI.violation_false
    · intro j hj hw hlt
      rw [hstep] at hw
      simp [setT, Function.update_same, inWait] at hw
    · intro j hj hc
      rw [hstep] at hc
      simp [setT, Function.update_same, inCs] at hc
    · intro k hpcn hk
      rw [hstep] at hpcn
      simp [setT, Function.update_same] at hpcn
    · intro i hiu hpci hk
      constructor
      · intro hsc
        rw [hstep] at hsc
        simp [setT, Function.update_same] at hsc
      · intro hsn
        rw [hstep] at hsn
        simp [setT, Function.update_same] at hsn
  case done =>
    rw [step_done K u s hpc]
    exact hI

end Bakery

namespace Bakery

variable {N : Nat}

/-- Every reachable state of the part_000 run satisfies the invariant. -/
theorem reach_inv {K : Nat} {s : GState N} (h : Reach N K s) : Inv N K s := by
  induction h with
  | refl => exact inv_init K
  | tail hsteps hstep ih =>
    rcases hstep with ⟨t, rfl⟩
    exact inv_step K ih t

theorem inside_le_one {K : Nat} {s : GState N} (hI : Inv N K s) : s.inside ≤ 1 := by
  rw [hI.inside_eq]
  by_cases hex : ∃ t : Fin N, occupied (s.tstate t).pc = true
  · rcases hex with ⟨t0, ht0⟩
    rw [Finset.sum_eq_single t0]
    · simp [insideOf, ht0]
    · intro j _ hj
      suffices h : occupied (s.tstate j).pc = false by simp [insideOf, h]
      by_contra hcon
      exact cs_excl hI t0 j (fun he => hj he.symm) (occupied_imp_inCs ht0)
        (occupied_imp_inCs (by simpa using hcon))
    · intro h
      exact absurd (Finset.mem_univ t0) h
  · push_neg at hex
    have hz : (Finset.univ.sum fun t : Fin N => insideOf (s.tstate t).pc) = 0 :=
      Finset.sum_eq_zero fun j _ => by
        simp [insideOf, Bool.eq_false_iff.mpr (hex j)]
    omega

theorem counter_final {K : Nat} {s : GState N} (hI : Inv N K s)
    (hall : ∀ t : Fin N, (s.tstate t).pc = .done) : s.counter = (N : Int) * K := by
  rw [hI.counter_eq]
  have hc : ∀ t : Fin N, contribOf (s.tstate t) = (K : Int) := by
    intro t
    have hd := (hI.locals t).done_iter (hall t)
    simp [contribOf, counted, hall t, hd]
  rw [Finset.sum_congr rfl fun t _ => hc t]
  simp [Finset.sum_const, Finset.card_univ, mul_comm]

theorem reach_step {K : Nat} {s : GState N} (h : Reach N K s) (t : Fin N) :
    Reach N K (stepOf K t s) :=
  Relation.ReflTransGen.tail h ⟨t, rfl⟩

theorem reach_iterate {K : Nat} {s : GState N} (h : Reach N K s) (t : Fin N) (n : Nat) :
    Reach N K ((stepOf K t)^[n] s) := by
  induction n with
  | zero => exact h
  | succ m ih =>
    rw [Function.iterate_succ_apply']
    exact reach_step ih t

theorem reach_demo (n : Nat) : Reach 2 1 (demo n) :=
  reach_iterate Relation.ReflTransGen.refl 0 n

end Bakery

theorem reach_demoB (n : Nat) : Bakery.Reach 2 1 (Bakery.demoB n) :=
  Bakery.reach_iterate (Bakery.reach_demo 20) 1 n

/-! ### Claim theorems -/

/-- Under the sequentially consistent strengthening of the doorway scan
(every load returns the slot's current value, `Bakery.stepOf`), the bakery
run is exclusion-correct: the occupancy counter never exceeds 1, the sticky
violation flag stays false, and when every participant has finished the
shared counter equals participant_count times iterations_per_participant.
This does NOT hold of the program under the C++ semantics of its relaxed
scan load — see the weak-memory refutation below. -/
theorem bakery_harness_exclusion_and_accounting (N K : Nat) (hN : 2 ≤ N) (hK : 1 ≤ K)
    (s : Bakery.GState N) (hR : Bakery.Reach N K s) :
    s.violation = false ∧ s.inside ≤ 1 ∧
      ((∀ t : Fin N, (s.tstate t).pc = Bakery.PC.done) → s.counter = (N : Int) * K) := by
  have hI := Bakery.reach_inv hR
  exact ⟨hI.violation_false, Bakery.inside_le_one hI, fun hall => Bakery.counter_final hI hall⟩

/-- The complete two-participant, one-iteration demonstration run (thread 0
runs to completion, then thread 1) finishes with the flag unset, occupancy
within bound, and the counter at 2 = 2 x 1. -/
theorem bakery_harness_exclusion_and_accounting_witness :
    (Bakery.demoB 20).violation = false ∧ (Bakery.demoB 20).inside ≤ 1 ∧
      (Bakery.demoB 20).counter = (2 : Int) * 1 := by
  have h := bakery_harness_exclusion_and_accounting 2 1 (by decide) (by decide)
    (Bakery.demoB 20) (reach_demoB 20)
  exact ⟨h.1, h.2.1, h.2.2 (by decide)⟩

/-- C4: in every reachable state in which a participant is about to write its
ticket (the store of line 44 of part_000), its choosing flag is still true,
the value written is exactly 1 plus the fold of max over the values its
doorway scan read (so it is strictly greater than each of them, and equals
one of them plus 1), one value per participant; and the thread's very next
instruction sets choosing back to false while leaving the ticket in place. -/
theorem bakery_doorway_ticket_assignment (N K : Nat) (s : Bakery.GState N) (t : Fin N)
    (hR : Bakery.Reach N K s) (hpc : (s.tstate t).pc = Bakery.PC.setNumber) :
    s.choosing t = true ∧
    (Bakery.stepOf K t s).number t = maxTicketScan (s.tstate t).scanned + 1 ∧
    (s.tstate t).scanned.length = N ∧
    (∀ v ∈ (s.tstate t).scanned, v < (Bakery.stepOf K t s).number t) ∧
    (∃ v ∈ (s.tstate t).scanned, (Bakery.stepOf K t s).number t = v + 1) ∧
    (Bakery.stepOf K t s).choosing t = true ∧
    ((Bakery.stepOf K t s).tstate t).pc = Bakery.PC.clearChoosing ∧
    (Bakery.stepOf K t (Bakery.stepOf K t s)).choosing t = false ∧
    (Bakery.stepOf K t (Bakery.stepOf K t s)).number t = (Bakery.stepOf K t s).number t := by
  have hI := Bakery.reach_inv hR
  obtain ⟨hlen, hmax, hpos⟩ := (hI.locals t).setnum_ghost hpc
  have hch : s.choosing t = true := by
    rw [(hI.locals t).choosing_eq, hpc]
    rfl
  have hstep := Bakery.step_setNumber K t s hpc
  have hnum : (Bakery.stepOf K t s).number t = (s.tstate t).maxv + 1 := by
    rw [hstep]
    simp [Bakery.setT, Function.update_same]
  have hnum2 : (Bakery.stepOf K t s).number t = maxTicketScan (s.tstate t).scanned + 1 := by
    rw [hnum, hmax]
    rfl
  have hne : (s.tstate t).scanned ≠ [] := by
    intro he
    rw [he] at hlen
    have := t.isLt
    simp at hlen
    omega
  have hpc1 : ((Bakery.stepOf K t s).tstate t).pc = Bakery.PC.clearChoosing := by
    rw [hstep]
    simp [Bakery.setT, Function.update_same]
  have hch1 : (Bakery.stepOf K t s).choosing t = true := by
    rw [hstep]
    simp only [Bakery.setT]
    exact hch
  have hstep2 := Bakery.step_clearChoosing K t (Bakery.stepOf K t s) hpc1
  refine ⟨hch, hnum2, hlen, ?_, ?_, hch1, hpc1, ?_, ?_⟩
  · intro v hv
    have := mem_le_foldl_max (s.tstate t).scanned 0 v hv
    rw [hnum2]
    unfold maxTicketScan
    omega
  · obtain ⟨v, hv, hfold⟩ := foldl_max_attained (s.tstate t).scanned hne hpos
    exact ⟨v, hv, by rw [hnum2]; unfold maxTicketScan; omega⟩
  · rw [hstep2]
    simp [Bakery.setT, Function.update_same]
  · rw [hstep2]
    simp only [Bakery.setT]

/-- Witness: after five demonstration steps thread 0 is at the ticket write;
the theorem applies and its doorway facts evaluate on that state. -/
theorem bakery_doorway_ticket_assignment_witness :
    (Bakery.demo 5).choosing 0 = true ∧
    (Bakery.stepOf 1 0 (Bakery.demo 5)).number 0 =
      maxTicketScan ((Bakery.demo 5).tstate 0).scanned + 1 ∧
    ((Bakery.demo 5).tstate 0).scanned.length = 2 := by
  have h := bakery_doorway_ticket_assignment 2 1 (Bakery.demo 5) 0
    (Bakery.reach_demo 5) (by decide)
  exact ⟨h.1, h.2.1, h.2.2.1⟩

/-- C5: the wait condition of the code is exactly "the other participant
holds a ticket and its (ticket, id) pair is lexicographically smaller";
while it (or the target's choosing flag) holds, the waiting thread's step
leaves the state unchanged (busy wait); clearing it advances the scan to the
next index; and by the time acquire returns, the completed checks cover
exactly the other participants, in strictly increasing index order, each
recorded with its observed ticket failing the wait condition. -/
theorem bakery_wait_loop_structure (N K : Nat) :
    (∀ (tj : Int) (j : Nat) (ti : Int) (i : Nat),
      waitCond tj j ti i ↔ (tj ≠ 0 ∧ lexLt (tj, j) (ti, i))) ∧
    (∀ s : Bakery.GState N, Bakery.Reach N K s → ∀ t : Fin N,
      ((s.tstate t).pc = Bakery.PC.waitChoosing →
        ∀ h : (s.tstate t).wj < N,
        (s.choosing ⟨(s.tstate t).wj, h⟩ = true → Bakery.stepOf K t s = s) ∧
        (s.choosing ⟨(s.tstate t).wj, h⟩ = false →
          ((Bakery.stepOf K t s).tstate t).pc = Bakery.PC.waitNumber ∧
          ((Bakery.stepOf K t s).tstate t).wj = (s.tstate t).wj)) ∧
      ((s.tstate t).pc = Bakery.PC.waitNumber →
        ∀ h : (s.tstate t).wj < N,
        (waitCond (s.number ⟨(s.tstate t).wj, h⟩) (s.tstate t).wj (s.number t) t.val →
          Bakery.stepOf K t s = s) ∧
        (¬ waitCond (s.number ⟨(s.tstate t).wj, h⟩) (s.tstate t).wj (s.number t) t.val →
          ((Bakery.stepOf K t s).tstate t).pc = Bakery.PC.waitLoop ∧
          ((Bakery.stepOf K t s).tstate t).wj = (s.tstate t).wj + 1)) ∧
      ((s.tstate t).pc = Bakery.PC.csEnter →
        (s.tstate t).passed.map Prod.fst = Bakery.othersBelow N t.val ∧
        List.Pairwise (· < ·) ((s.tstate t).passed.map Prod.fst) ∧
        ∀ p ∈ (s.tstate t).passed, ¬ waitCond p.2 p.1 (s.number t) t.val)) := by
  refine ⟨waitCond_iff_lexLt, ?_⟩
  intro s hR t
  have hI := Bakery.reach_inv hR
  refine ⟨?_, ?_, ?_⟩
  · intro hpc h
    constructor
    · intro hc
      exact Bakery.step_waitChoosing_spin K t s hpc h hc
    · intro hc
      have hstep := Bakery.step_waitChoosing_pass K t s hpc h hc
      rw [hstep]
      constructor <;> simp [Bakery.setT, Function.update_same]
  · intro hpc h
    constructor
    · intro hc
      exact Bakery.step_waitNumber_spin K t s hpc h hc
    · intro hc
      have hstep := Bakery.step_waitNumber_pass K t s hpc h hc
      rw [hstep]
      constructor <;> simp [Bakery.setT, Function.update_same]
  · intro hpc
    have hmap := (hI.locals t).passed_cs (Or.inl (by rw [hpc]; rfl))
    refine ⟨hmap, ?_, (hI.locals t).passed_ok (Or.inr (Or.inl (by rw [hpc]; rfl)))⟩
    rw [hmap]
    exact Bakery.othersBelow_sorted N t.val

/-- Witness: on the demonstration run, thread 0 reaches the critical section
having checked exactly participant 1, in order, with its observed ticket 0. -/
theorem bakery_wait_loop_structure_witness :
    (waitCond 3 0 5 1 ↔ ((3 : Int) ≠ 0 ∧ lexLt (3, 0) (5, 1))) ∧
    ((Bakery.demo 12).tstate 0).passed.map Prod.fst = Bakery.othersBelow 2 0 ∧
    ∀ p ∈ ((Bakery.demo 12).tstate 0).passed,
      ¬ waitCond p.2 p.1 ((Bakery.demo 12).number 0) 0 := by
  have h := bakery_wait_loop_structure 2 1
  have h2 := (h.2 (Bakery.demo 12) (Bakery.reach_demo 12) 0).2.2 (by decide)
  exact ⟨h.1 3 0 5 1, h2.1, h2.2.2⟩

/-- C9: every write the run performs to the violation flag stores true, so
the flag is sticky: once true it remains true along any schedule; and
whenever a thread performs the protected counter increment it has already
incremented the occupancy counter and not yet decremented it. -/
theorem harness_occupancy_and_sticky_flag (N K : Nat) :
    (∀ (s : Bakery.GState N) (t : Fin N),
      (Bakery.stepOf K t s).violation = s.violation ∨
        (Bakery.stepOf K t s).violation = true) ∧
    (∀ s s' : Bakery.GState N, Relation.ReflTransGen (Bakery.StepRel K) s s' →
      s.violation = true → s'.violation = true) ∧
    (∀ s : Bakery.GState N, Bakery.Reach N K s → ∀ t : Fin N,
      (s.tstate t).pc = Bakery.PC.csCount →
      (s.tstate t).incC = (s.tstate t).decC + 1 ∧ 1 ≤ s.inside) := by
  refine ⟨fun s t => Bakery.stepOf_violation_mono K t s, ?_, ?_⟩
  · intro s s' hsteps hv
    induction hsteps with
    | refl => exact hv
    | tail hsteps hstep ih =>
      rcases hstep with ⟨t, rfl⟩
      rcases Bakery.stepOf_violation_mono K t _ with h | h
      · rw [h]
        exact ih
      · exact h
  · intro s hR t hpc
    have hI := Bakery.reach_inv hR
    have h1 := (hI.locals t).incC_eq
    have h2 := (hI.locals t).decC_eq
    rw [hpc] at h1 h2
    simp [Bakery.incRegion] at h1 h2
    constructor
    · omega
    · rw [hI.inside_eq]
      have hnn : ∀ j ∈ (Finset.univ : Finset (Fin N)),
          (0 : Int) ≤ Bakery.insideOf (s.tstate j).pc := fun j _ => by
        unfold Bakery.insideOf
        split <;> simp
      have hle := Finset.single_le_sum hnn (Finset.mem_univ t)
      rw [hpc] at hle
      simpa [Bakery.insideOf, Bakery.occupied] using hle

/-- Witness: on the demonstration run thread 0 is at the protected increment
after 14 steps, with one occupancy increment performed and none undone, and
stickiness applied along an empty extension. -/
theorem harness_occupancy_and_sticky_flag_witness :
    ((Bakery.demo 14).tstate 0).incC = ((Bakery.demo 14).tstate 0).decC + 1 ∧
    1 ≤ (Bakery.demo 14).inside := by
  exact (harness_occupancy_and_sticky_flag 2 1).2.2 (Bakery.demo 14)
    (Bakery.reach_demo 14) 0 (by decide)

/-- C10: in every reachable state every ticket slot is nonnegative; the
choosing flag of a participant is true exactly while its program counter is
inside the doorway (from right after the flag set to the flag clear); at the
initial state tickets are 0 and flags false; the ticket write of acquire
stores the strictly positive maxv + 1 and release stores 0; and the
BakeryLock constructor of Lamport_ds.cpp zero-initialises its vectors. -/
theorem bakery_ticket_state_invariants (N K : Nat) (s : Bakery.GState N)
    (hR : Bakery.Reach N K s) (i : Fin N) :
    0 ≤ s.number i ∧
    s.choosing i = Bakery.doorwayFlag (s.tstate i).pc ∧
    (Bakery.init N).number i = 0 ∧ (Bakery.init N).choosing i = false ∧
    ((s.tstate i).pc = Bakery.PC.setNumber →
      (Bakery.stepOf K i s).number i = (s.tstate i).maxv + 1 ∧
        1 ≤ (Bakery.stepOf K i s).number i) ∧
    ((s.tstate i).pc = Bakery.PC.unlockStep → (Bakery.stepOf K i s).number i = 0) ∧
    (∀ n : Nat, (bakeryLockNew n).ticket = List.replicate n 0 ∧
      (bakeryLockNew n).choosing = List.replicate n false) := by
  have hI := Bakery.reach_inv hR
  refine ⟨Bakery.number_nonneg hI i, (hI.locals i).choosing_eq, rfl, rfl, ?_, ?_,
    fun n => ⟨rfl, rfl⟩⟩
  · intro hpc
    have hstep := Bakery.step_setNumber K i s hpc
    have hmx := (hI.locals i).maxv_nonneg
    constructor
    · rw [hstep]
      simp [Bakery.setT, Function.update_same]
    · rw [hstep]
      simp only [Bakery.setT]
      simp [Function.update_same]
      omega
  · intro hpc
    have hstep := Bakery.step_unlock K i s hpc
    rw [hstep]
    simp [Bakery.setT, Function.update_same]

/-- Witness: the invariants evaluated at the initial state of a two-thread,
one-iteration run. -/
theorem bakery_ticket_state_invariants_witness :
    0 ≤ (Bakery.init 2).number 0 ∧
    (Bakery.init 2).choosing 0 = Bakery.doorwayFlag ((Bakery.init 2).tstate 0).pc := by
  have h := bakery_ticket_state_invariants 2 1 (Bakery.init 2)
    Relation.ReflTransGen.refl 0
  exact ⟨h.1, h.2.1⟩

/-- C2 (failing behaviour, kept as the record of the defect): a queue holding
a throwing task followed by a normal one.  The executor runs the throwing
closure, its promise is never resolved (resolved list empty), the executor
thread dies, and the second task is never executed — against the spec's
failure semantics, which require the completion signal to be resolved with
the failure and the executor to stay alive. -/
theorem delegation_unhandled_failure_drops_completion :
    workerRun [⟨0, .error "boom"⟩, ⟨1, .ok ()⟩] =
      { executed := [0], resolved := [], alive := false } := rfl

/-- C3 (failing behaviour, kept as the record of the defect): when shutdown
has been requested (`running = false`, as the destructor sets before
notifying) while one task is still queued, the worker's next iteration hits
the `if (!running) break;` first and exits, dropping the queued task without
executing it or resolving its promise — against the spec's draining
shutdown. -/
theorem delegation_shutdown_drops_queued_task :
    workerIter false [⟨0, .ok ()⟩] = .exited [⟨0, .ok ()⟩] := rfl

/-- C7: the delegation executor preserves submission order: the executed
identifiers always form a prefix of the submitted ones, the resolved ones a
prefix of the executed ones, and when every closure completes normally both
equal the full submission sequence in its exact order. -/
theorem delegation_fifo_order (tasks : List DTask) :
    (∃ rest, (workerRun tasks).executed ++ rest = tasks.map DTask.tid) ∧
    (∃ rest, (workerRun tasks).resolved ++ rest = (workerRun tasks).executed) ∧
    ((∀ t ∈ tasks, t.work = .ok ()) →
      (workerRun tasks).executed = tasks.map DTask.tid ∧
      (workerRun tasks).resolved = tasks.map DTask.tid) := by
  induction tasks with
  | nil => exact ⟨⟨[], rfl⟩, ⟨[], rfl⟩, fun _ => ⟨rfl, rfl⟩⟩
  | cons t rest ih =>
    obtain ⟨⟨r1, hr1⟩, ⟨r2, hr2⟩, hok⟩ := ih
    rcases hw : t.work with e | u
    · refine ⟨⟨rest.map DTask.tid, ?_⟩, ⟨[t.tid], ?_⟩, ?_⟩
      · simp [workerRun, hw]
      · simp [workerRun, hw]
      · intro hall
        have := hall t (List.mem_cons_self t rest)
        rw [hw] at this
        cases this
    · refine ⟨⟨r1, ?_⟩, ⟨r2, ?_⟩, ?_⟩
      · simp only [workerRun, hw, List.map_cons, List.cons_append]
        rw [hr1]
      · simp only [workerRun, hw, List.cons_append]
        rw [hr2]
      · intro hall
        obtain ⟨he, hres⟩ := hok fun x hx => hall x (List.mem_cons_of_mem t hx)
        constructor
        · simp only [workerRun, hw, List.map_cons]
          rw [he]
        · simp only [workerRun, hw, List.map_cons]
          rw [hres]

/-- Witness: two normally-completing submissions execute and resolve as
[0, 1], their submission order. -/
theorem delegation_fifo_order_witness :
    (workerRun [⟨0, .ok ()⟩, ⟨1, .ok ()⟩]).executed = [0, 1] ∧
    (workerRun [⟨0, .ok ()⟩, ⟨1, .ok ()⟩]).resolved = [0, 1] := by
  have h := (delegation_fifo_order [⟨0, .ok ()⟩, ⟨1, .ok ()⟩]).2.2
  have hall : ∀ t ∈ [(⟨0, .ok ()⟩ : DTask), ⟨1, .ok ()⟩], t.work = .ok () := by
    intro t ht
    rcases List.mem_cons.mp ht with rfl | ht
    · rfl
    · rcases List.mem_cons.mp ht with rfl | ht
      · rfl
      · cases ht
  exact h hall

/-- C6 (the defect, as a checked audit of the source's memory orders): the
doorway scan load of part_000's lock uses memory_order_relaxed, which is
neither sequentially consistent nor an acquire operation, so not every
access meets the spec's required strength; every other access of part_000's
lock/unlock, and every access of Lamport_ds.cpp's BakeryLock, is seq_cst. -/
theorem bakery_memory_orders_audit :
    part000LockAccesses.all specOrderOK = false ∧
    part000LockAccesses[1]? =
      some { kind := .load, order := .relaxed } ∧
    (part000LockAccesses.filter (fun a => ! specOrderOK a)) =
      [{ kind := .load, order := .relaxed }] ∧
    part000UnlockAccesses.all specOrderOK = true ∧
    lamportDsAccesses.all specOrderOK = true := by
  decide

/-- C8 counterexample: the BakeryLock constructor of Lamport_ds.cpp enforces
no maximum: at participant count 65 = part_000's fixed maximum + 1 it still
creates a fully initialised lock instead of failing. -/
theorem bakery_no_construction_maximum :
    part000MaxThreads + 1 = 65 ∧
    (bakeryLockNew 65).threadCount = 65 ∧
    (bakeryLockNew 65).choosing.length = 65 ∧
    (bakeryLockNew 65).ticket.length = 65 := by
  refine ⟨rfl, rfl, ?_, ?_⟩ <;> simp [bakeryLockNew]

/-- C8 as amended: part_000's harness refuses to run when the configured
participant count exceeds its fixed maximum (64), exiting with code 1
before initialising anything, and proceeds otherwise; the BakeryLock class
itself (Lamport_ds.cpp) checks no maximum: construction succeeds at every
count, producing zero-initialised vectors of that size. -/
theorem bakery_construction_guard_amended (n : Nat) :
    (n ≤ part000MaxThreads → part000MainGuard n part000MaxThreads = .ok ()) ∧
    (part000MaxThreads < n → part000MainGuard n part000MaxThreads = .error 1) ∧
    (bakeryLockNew n).threadCount = n ∧
    (bakeryLockNew n).choosing = List.replicate n false ∧
    (bakeryLockNew n).ticket = List.replicate n 0 := by
  refine ⟨?_, ?_, rfl, rfl, rfl⟩
  · intro h
    simp [part000MainGuard, Nat.not_lt.mpr h]
  · intro h
    simp [part000MainGuard, h]

/-- Witness: the configured run (8 threads) passes the guard, 64 passes,
and 65 is rejected with exit code 1; construction at 65 still yields a
65-slot lock. -/
theorem bakery_construction_guard_amended_witness :
    part000MainGuard part000NumThreads part000MaxThreads = .ok () ∧
    part000MainGuard 64 part000MaxThreads = .ok () ∧
    part000MainGuard 65 part000MaxThreads = .error 1 := by
  refine ⟨(bakery_construction_guard_amended 8).1 (by decide),
    (bakery_construction_guard_amended 64).1 (by decide),
    (bakery_construction_guard_amended 65).2.1 (by decide)⟩

/-! ### The weak-memory refutation of the exclusion claim -/

namespace Bakery

variable {N : Nat}

theorem wreach_iterate {K : Nat} {s : GState N} (h : WReach N K s) (t : Fin N)
    (n : Nat) : WReach N K ((stepOf K t)^[n] s) := by
  induction n with
  | zero => exact h
  | succ m ih =>
    rw [Function.iterate_succ_apply']
    exact Relation.ReflTransGen.tail ih (WStep.strong t _)

end Bakery

/-- C1 (the claim fails on the program, kept as the record of the defect):
with the doorway scan load given its real `memory_order_relaxed` semantics
(part_000 line 38), a two-participant, one-iteration run reaches a state
with BOTH participants between the occupancy increment and decrement
(occupancy 2) and the sticky violation flag set: thread 1 takes ticket 1
and enters the critical section; thread 0's relaxed scan then reads thread
1's slot as the stale initial 0, so thread 0 also computes ticket 1, the
(ticket 1, id 0) pair wins the tie-break against (ticket 1, id 1), thread 0
passes its wait into the occupied critical section, and its entry check
`fetch_add(1) > 0` stores true into the violation flag — against the claim
that the flag stays false and occupancy never exceeds 1 on every run with
at least two participants. -/
theorem bakery_relaxed_scan_violation :
    Bakery.WReach 2 1 Bakery.wdemoD ∧ Bakery.wdemoD.violation = true ∧
      Bakery.wdemoD.inside = 2 := by
  have hA : Bakery.WReach 2 1 Bakery.wdemoA :=
    Bakery.wreach_iterate Relation.ReflTransGen.refl 1 13
  have hB : Bakery.WReach 2 1 Bakery.wdemoB := Bakery.wreach_iterate hA 0 3
  have hC : Bakery.WReach 2 1 Bakery.wdemoC :=
    Relation.ReflTransGen.tail hB
      (Bakery.WStep.staleScan 0 Bakery.wdemoB (by decide) (by decide) (by decide))
  refine ⟨Bakery.wreach_iterate hC 0 10, by decide, by decide⟩
